import Mathlib

/-!
Verification of the byte-level BPE tokenizer in src/bpe/simple_tokenizer.py.

Token ids and bytes are modelled as natural numbers, text as lists of
characters, and Python dicts (which preserve insertion order) as
association lists with update-in-place-or-append semantics.  The regex
chunker and Python's UTF-8 codec are external collaborators: the chunker
is an abstract parameter constrained by its contract (it partitions the
text), and the UTF-8 codec is modelled explicitly below.
-/

set_option maxHeartbeats 1000000
set_option maxRecDepth 10000

/-- Association-list lookup, modelling Python dict lookup. -/
def alookup {α β : Type} [DecidableEq α] : List (α × β) → α → Option β
  | [], _ => none
  | (k, v) :: rest, x => if k = x then some v else alookup rest x

/-- Association-list update, modelling Python dict assignment: overwrite the
value at an existing key in place, else append a new entry at the end. -/
def aupdate {α β : Type} [DecidableEq α] : List (α × β) → α → β → List (α × β)
  | [], k, v => [(k, v)]
  | (k0, v0) :: rest, k, v =>
      if k0 = k then (k0, v) :: rest else (k0, v0) :: aupdate rest k v

/-- The statement counts[pair] = counts.get(pair, 0) + 1 from get_stats. -/
def bumpCount {α : Type} [DecidableEq α] : List (α × Nat) → α → List (α × Nat)
  | [], x => [(x, 1)]
  | (k, c) :: rest, x => if k = x then (k, c + 1) :: rest else (k, c) :: bumpCount rest x

/-- get_stats from simple_tokenizer.py: given a list of token_ids, count each
adjacent pair, accumulating into the insertion-ordered mapping counts. -/
def get_stats : List Nat → List ((Nat × Nat) × Nat) → List ((Nat × Nat) × Nat)
  | a :: b :: rest, counts => get_stats (b :: rest) (bumpCount counts (a, b))
  | _, counts => counts

/-- merge_token_ids from simple_tokenizer.py: scan left to right; on a match of
the pair, emit idx and advance by two; otherwise emit the id and advance by one. -/
def merge_token_ids : List Nat → Nat × Nat → Nat → List Nat
  | a :: b :: rest, pair, idx =>
      if a = pair.1 ∧ b = pair.2 then idx :: merge_token_ids rest pair idx
      else a :: merge_token_ids (b :: rest) pair idx
  | ids, _, _ => ids

/-- fast_merge_inplace_token_ids from simple_tokenizer.py: the in-place variant
keeps the cursor at position i after writing idx there and popping position
i + 1, so the freshly written idx is compared against the pair again. -/
def fast_merge_inplace_token_ids : List Nat → Nat × Nat → Nat → List Nat
  | a :: b :: rest, pair, idx =>
      if a = pair.1 ∧ b = pair.2 then fast_merge_inplace_token_ids (idx :: rest) pair idx
      else a :: fast_merge_inplace_token_ids (b :: rest) pair idx
  | ids, _, _ => ids
  termination_by ids _ _ => ids.length
  decreasing_by all_goals simp [List.length]

/-- Adjacent pairs of a sequence, in left-to-right order (zip(ids, ids[1:])). -/
def adjPairs : List Nat → List (Nat × Nat)
  | a :: b :: rest => (a, b) :: adjPairs (b :: rest)
  | _ => []

/-- All adjacent pairs of a list of chunk sequences, chunk order first, then
left-to-right within each chunk. -/
def pairStream (ids : List (List Nat)) : List (Nat × Nat) :=
  (ids.map adjPairs).flatten

/-- Index of the first occurrence of an element in a list (length if absent). -/
def firstIdx {α : Type} [DecidableEq α] : List α → α → Nat
  | [], _ => 0
  | x :: rest, a => if x = a then 0 else firstIdx rest a + 1

/-- First occurrences of the elements of a list that are outside seen, in
order of first occurrence; with seen = [] this is the key insertion order of
an insertion-ordered counting mapping fed those elements. -/
def keepFirstSkip {α : Type} [DecidableEq α] : List α → List α → List α
  | [], _ => []
  | x :: rest, seen =>
      if x ∈ seen then keepFirstSkip rest seen else x :: keepFirstSkip rest (seen ++ [x])

/-- Python max(stats, key=stats.get): fold over the entries in insertion
order, replacing the current best only on a strictly larger count, so the
first entry attaining the maximum count wins. -/
def maxByFirst : List ((Nat × Nat) × Nat) → Option ((Nat × Nat) × Nat)
  | [] => none
  | x :: xs => some (xs.foldl (fun best y => if best.2 < y.2 then y else best) x)

/-- Comparison of merge ranks where none stands for float("inf"). -/
def rankBetter : Option Nat → Option Nat → Bool
  | some a, some b => decide (a < b)
  | some _, none => true
  | none, _ => false

/-- Python min(stats, key=lambda p: merges.get(p, float("inf"))): fold over
the stats entries in insertion order, replacing the current best only on a
strictly smaller rank, so the first entry attaining the minimum wins. -/
def minByRank (merges : List ((Nat × Nat) × Nat)) : List ((Nat × Nat) × Nat) → Option (Nat × Nat)
  | [] => none
  | x :: xs =>
      some ((xs.foldl
        (fun best y =>
          if rankBetter (alookup merges y.1) (alookup merges best.1) then y else best) x).1)

/-- UTF-8 encoding of one Unicode scalar value, as byte values 0..255. -/
def utf8EncodeChar (n : Nat) : List Nat :=
  if n < 0x80 then [n]
  else if n < 0x800 then [0xC0 + n / 0x40, 0x80 + n % 0x40]
  else if n < 0x10000 then [0xE0 + n / 0x1000, 0x80 + n / 0x40 % 0x40, 0x80 + n % 0x40]
  else [0xF0 + n / 0x40000, 0x80 + n / 0x1000 % 0x40, 0x80 + n / 0x40 % 0x40, 0x80 + n % 0x40]

/-- UTF-8 encoding of a text, modelling Python str.encode("utf-8"). -/
def utf8Encode (s : List Char) : List Nat :=
  (s.map (fun c => utf8EncodeChar c.toNat)).flatten

/-- The Unicode replacement character U+FFFD. -/
def replChar : Char := '�'

/-- Modelled from the spec: Python bytes.decode("utf-8", errors="replace") is
external library code; per the spec, decoding interprets the byte string as
UTF-8 text, "substituting the standard replacement character for any byte
subsequence that is not valid UTF-8", and is total over arbitrary bytes.
One decoding step: read one UTF-8 scalar (or one maximal invalid subpart,
which becomes the replacement character) and return it together with the
remaining bytes. -/
def utf8Step : List Nat → Char × List Nat
  | [] => (replChar, [])
  | b0 :: rest =>
      if b0 < 0x80 then (Char.ofNat b0, rest)
      else if b0 < 0xC0 then (replChar, rest)
      else if b0 < 0xE0 then
        match rest with
        | b1 :: rest1 =>
            if 0x80 ≤ b1 ∧ b1 < 0xC0 then
              if 0x80 ≤ (b0 - 0xC0) * 0x40 + (b1 - 0x80) then
                (Char.ofNat ((b0 - 0xC0) * 0x40 + (b1 - 0x80)), rest1)
              else (replChar, rest1)
            else (replChar, b1 :: rest1)
        | [] => (replChar, [])
      else if b0 < 0xF0 then
        match rest with
        | b1 :: b2 :: rest2 =>
            if (0x80 ≤ b1 ∧ b1 < 0xC0) ∧ (0x80 ≤ b2 ∧ b2 < 0xC0) then
              if 0x800 ≤ (b0 - 0xE0) * 0x1000 + (b1 - 0x80) * 0x40 + (b2 - 0x80) ∧
                  ((b0 - 0xE0) * 0x1000 + (b1 - 0x80) * 0x40 + (b2 - 0x80) < 0xD800 ∨
                    0xDFFF < (b0 - 0xE0) * 0x1000 + (b1 - 0x80) * 0x40 + (b2 - 0x80)) then
                (Char.ofNat ((b0 - 0xE0) * 0x1000 + (b1 - 0x80) * 0x40 + (b2 - 0x80)), rest2)
              else (replChar, rest2)
            else (replChar, b1 :: b2 :: rest2)
        | [b1] => (replChar, [b1])
        | [] => (replChar, [])
      else if b0 < 0xF8 then
        match rest with
        | b1 :: b2 :: b3 :: rest3 =>
            if (0x80 ≤ b1 ∧ b1 < 0xC0) ∧ (0x80 ≤ b2 ∧ b2 < 0xC0) ∧ (0x80 ≤ b3 ∧ b3 < 0xC0) then
              if 0x10000 ≤
                    (b0 - 0xF0) * 0x40000 + (b1 - 0x80) * 0x1000 + (b2 - 0x80) * 0x40 +
                      (b3 - 0x80) ∧
                  (b0 - 0xF0) * 0x40000 + (b1 - 0x80) * 0x1000 + (b2 - 0x80) * 0x40 +
                      (b3 - 0x80) <
                    0x110000 then
                (Char.ofNat
                  ((b0 - 0xF0) * 0x40000 + (b1 - 0x80) * 0x1000 + (b2 - 0x80) * 0x40 +
                    (b3 - 0x80)), rest3)
              else (replChar, rest3)
            else (replChar, b1 :: b2 :: b3 :: rest3)
        | [b1, b2] => (replChar, [b1, b2])
        | [b1] => (replChar, [b1])
        | [] => (replChar, [])
      else (replChar, rest)

/-- Iterate utf8Step; each step consumes at least one byte, so a fuel equal
to the byte count is always enough. -/
def utf8DecodeFuel : Nat → List Nat → List Char
  | 0, _ => []
  | _ + 1, [] => []
  | fuel + 1, b0 :: rest =>
      (utf8Step (b0 :: rest)).1 :: utf8DecodeFuel fuel (utf8Step (b0 :: rest)).2

/-- Modelled from the spec: the total UTF-8 decoder with replacement. -/
def utf8DecodeReplace (l : List Nat) : List Char := utf8DecodeFuel l.length l

/-- Result of RegexTokenizer.train: the merges dict, the vocab dict and the
returned ambiguity flag. -/
structure TrainResult where
  merges : List ((Nat × Nat) × Nat)
  vocab : List (Nat × List Nat)
  ambiguous : Bool
  deriving DecidableEq

/-- The initial vocab dict: idx -> bytes([idx]) for idx in range(256). -/
def baseVocab : List (Nat × List Nat) :=
  (List.range 256).map (fun i => (i, [i]))

/-- The per-round statistics accumulation of RegexTokenizer.train: get_stats
applied to every chunk sequence in order, into one shared mapping. -/
def accumStats (ids : List (List Nat)) : List ((Nat × Nat) × Nat) :=
  ids.foldl (fun acc chunk_ids => get_stats chunk_ids acc) []

/-- The training loop of RegexTokenizer.train: each round accumulates pair
statistics over all chunk sequences, stops early if there are none, selects
the pair with the highest count (first-introduced wins ties), ORs the
ambiguity of the round into the flag, merges the pair in every chunk with the
next fresh id, and records the merge and its vocab entry. -/
def trainLoop : List (List Nat) → List ((Nat × Nat) × Nat) → List (Nat × List Nat) → Nat → Bool →
    Nat → TrainResult
  | _, merges, vocab, _, amb, 0 => ⟨merges, vocab, amb⟩
  | ids, merges, vocab, nextId, amb, r + 1 =>
      let stats := accumStats ids
      match maxByFirst stats with
      | none => ⟨merges, vocab, amb⟩
      | some (pair, cnt) =>
          let amb2 := amb || decide (1 < (stats.filter (fun e => e.2 == cnt)).length)
          trainLoop (ids.map (fun chunk_ids => merge_token_ids chunk_ids pair nextId))
            (aupdate merges pair nextId)
            (aupdate vocab nextId ((alookup vocab pair.1).getD [] ++ (alookup vocab pair.2).getD []))
            (nextId + 1) amb2 r

/-- RegexTokenizer.train, parametrised by the external regex chunker split.
The assert vocab_size >= 256 is modelled as the none result. -/
def train (split : List Char → List (List Char)) (text : List Char) (vocab_size : Nat) :
    Option TrainResult :=
  if vocab_size < 256 then none
  else
    some (trainLoop ((split text).map (fun chunk => utf8Encode chunk)) [] baseVocab 256 false
      (vocab_size - 256))

/-- One fuelled unfolding of the while loop of RegexTokenizer._encode_chunk:
while at least two ids remain, select the adjacent pair with the lowest merge
rank and merge it, stopping when the selected pair is not a merges key. -/
def encode_chunk_fuel (merges : List ((Nat × Nat) × Nat)) : Nat → List Nat → List Nat
  | 0, ids => ids
  | fuel + 1, ids =>
      if ids.length < 2 then ids
      else
        match minByRank merges (get_stats ids []) with
        | none => ids
        | some pair =>
            match alookup merges pair with
            | none => ids
            | some idx => encode_chunk_fuel merges fuel (merge_token_ids ids pair idx)

/-- RegexTokenizer._encode_chunk: the loop shrinks the sequence every
iteration, so a fuel equal to the initial length always suffices. -/
def encode_chunk (merges : List ((Nat × Nat) × Nat)) (text_bytes : List Nat) : List Nat :=
  encode_chunk_fuel merges text_bytes.length text_bytes

/-- RegexTokenizer.encode_ordinary, parametrised by the external chunker:
encode each chunk's UTF-8 bytes and concatenate the results in chunk order. -/
def encode_ordinary (merges : List ((Nat × Nat) × Nat)) (split : List Char → List (List Char))
    (text : List Char) : List Nat :=
  ((split text).map (fun chunk => encode_chunk merges (utf8Encode chunk))).flatten

/-- The expression b"".join(vocab[idx] for idx in token_ids) of
RegexTokenizer.decode; none models the KeyError on an id absent from vocab. -/
def joinVocab (vocab : List (Nat × List Nat)) : List Nat → Option (List Nat)
  | [] => some []
  | i :: rest =>
      match alookup vocab i with
      | none => none
      | some bs => (joinVocab vocab rest).map (fun tail => bs ++ tail)

/-- RegexTokenizer.decode: concatenate the vocab bytes of every id (failing
on an undefined id) and decode the result as UTF-8 with replacement. -/
def decode (vocab : List (Nat × List Nat)) (token_ids : List Nat) : Option (List Char) :=
  (joinVocab vocab token_ids).map utf8DecodeReplace

/-- The byte sequence a token id stands for (empty for an undefined id). -/
def expandTok (vocab : List (Nat × List Nat)) (i : Nat) : List Nat :=
  (alookup vocab i).getD []

/-- Every recorded merge maps its result id to the concatenation of the byte
sequences of the two merged ids. -/
def MergesOk (merges : List ((Nat × Nat) × Nat)) (vocab : List (Nat × List Nat)) : Prop :=
  ∀ p r, alookup merges p = some r →
    alookup vocab r = some (expandTok vocab p.1 ++ expandTok vocab p.2)

/-- The vocab binds every byte value to its singleton byte sequence. -/
def BaseOk (vocab : List (Nat × List Nat)) : Prop :=
  ∀ i, i < 256 → alookup vocab i = some [i]

/-- Modelled from the spec: "train returns ambiguousOccurred == true if and
only if in at least one training round two or more distinct pairs shared the
maximum count".  This predicate replays the training rounds and records only
whether some round had a tie for the maximum. -/
def hasTie : List (List Nat) → Nat → Nat → Bool
  | _, _, 0 => false
  | ids, nextId, r + 1 =>
      let stats := accumStats ids
      match maxByFirst stats with
      | none => false
      | some (pair, cnt) =>
          decide (1 < (stats.filter (fun e => e.2 == cnt)).length) ||
            hasTie (ids.map (fun chunk_ids => merge_token_ids chunk_ids pair nextId)) (nextId + 1) r

/-- Modelled from the spec: the cursor description of the merge applier.
"Scanning proceeds left to right with a cursor; on a match, both positions
are consumed and the cursor advances by 2 (emitting one r); on a non-match,
the cursor advances by 1 (emitting the original id)." -/
def mergeCursor (ids : List Nat) (pair : Nat × Nat) (idx : Nat) (i : Nat) : List Nat :=
  if h : i < ids.length then
    if ids.get ⟨i, h⟩ = pair.1 ∧ ids.get? (i + 1) = some pair.2 then
      idx :: mergeCursor ids pair idx (i + 2)
    else
      ids.get ⟨i, h⟩ :: mergeCursor ids pair idx (i + 1)
  else []
  termination_by ids.length - i

/-! Basic facts about merge_token_ids and adjacent pairs. -/

theorem adjPairs_cons₂ (a b : Nat) (t : List Nat) :
    adjPairs (a :: b :: t) = (a, b) :: adjPairs (b :: t) := rfl

theorem mem_adjPairs_tail {q : Nat × Nat} {t : List Nat} (x : Nat) (hq : q ∈ adjPairs t) :
    q ∈ adjPairs (x :: t) := by
  cases t with
  | nil => simp [adjPairs] at hq
  | cons c t0 => rw [adjPairs_cons₂]; exact List.mem_cons_of_mem _ hq

theorem mem_adjPairs_cons {q : Nat × Nat} {x : Nat} {t : List Nat}
    (hq : q ∈ adjPairs (x :: t)) :
    ∃ c t0, t = c :: t0 ∧ (q = (x, c) ∨ q ∈ adjPairs (c :: t0)) := by
  cases t with
  | nil => simp [adjPairs] at hq
  | cons c t0 =>
      rw [adjPairs_cons₂] at hq
      rcases List.mem_cons.mp hq with h | h
      · exact ⟨c, t0, rfl, Or.inl h⟩
      · exact ⟨c, t0, rfl, Or.inr h⟩

theorem mem_of_mem_adjPairs {q : Nat × Nat} {l : List Nat} (hq : q ∈ adjPairs l) :
    q.1 ∈ l ∧ q.2 ∈ l := by
  induction l with
  | nil => simp [adjPairs] at hq
  | cons x t ih =>
      rcases mem_adjPairs_cons hq with ⟨c, t0, rfl, h | h⟩
      · subst h; simp
      · have := ih h
        exact ⟨List.mem_cons_of_mem _ this.1, List.mem_cons_of_mem _ this.2⟩

theorem merge_cons_not_head {x : Nat} {pair : Nat × Nat} (t : List Nat) (idx : Nat)
    (hx : x ≠ pair.1) :
    merge_token_ids (x :: t) pair idx = x :: merge_token_ids t pair idx := by
  cases t with
  | nil => rfl
  | cons b rest => rw [merge_token_ids]; simp [hx]

theorem merge_of_no_two {ids : List Nat} (pair : Nat × Nat) (idx : Nat)
    (h : ∀ a b rest, ids ≠ a :: b :: rest) : merge_token_ids ids pair idx = ids := by
  cases ids with
  | nil => rfl
  | cons a t =>
      cases t with
      | nil => rfl
      | cons b rest => exact absurd rfl (h a b rest)

theorem merge_head_cases (b : Nat) (rest : List Nat) (pair : Nat × Nat) (idx : Nat) :
    ∃ t, merge_token_ids (b :: rest) pair idx = b :: t ∨
      merge_token_ids (b :: rest) pair idx = idx :: t := by
  cases rest with
  | nil => exact ⟨[], Or.inl rfl⟩
  | cons c rest0 =>
      rw [merge_token_ids]
      by_cases h : b = pair.1 ∧ c = pair.2
      · exact ⟨merge_token_ids rest0 pair idx, by simp [h]⟩
      · exact ⟨merge_token_ids (c :: rest0) pair idx, by simp [h]⟩

theorem mem_merge {x : Nat} {ids : List Nat} {pair : Nat × Nat} {idx : Nat}
    (hx : x ∈ merge_token_ids ids pair idx) : x ∈ ids ∨ x = idx := by
  induction ids, pair, idx using merge_token_ids.induct with
  | case1 a b rest pair idx h ih =>
      rw [merge_token_ids, if_pos h] at hx
      rcases List.mem_cons.mp hx with h0 | h0
      · exact Or.inr h0
      · rcases ih h0 with h1 | h1
        · exact Or.inl (by simp [h1])
        · exact Or.inr h1
  | case2 a b rest pair idx h ih =>
      rw [merge_token_ids, if_neg h] at hx
      rcases List.mem_cons.mp hx with h0 | h0
      · exact Or.inl (by simp [h0])
      · rcases ih h0 with h1 | h1
        · exact Or.inl (List.mem_cons_of_mem _ h1)
        · exact Or.inr h1
  | case3 ids pair idx h =>
      rw [merge_of_no_two _ _ h] at hx
      exact Or.inl hx

theorem merge_length_le (ids : List Nat) (pair : Nat × Nat) (idx : Nat) :
    (merge_token_ids ids pair idx).length ≤ ids.length := by
  induction ids, pair, idx using merge_token_ids.induct with
  | case1 a b rest pair idx h ih =>
      rw [merge_token_ids, if_pos h]
      simp only [List.length_cons]
      omega
  | case2 a b rest pair idx h ih =>
      rw [merge_token_ids, if_neg h]
      simp only [List.length_cons] at *
      omega
  | case3 ids pair idx h => rw [merge_of_no_two _ _ h]

theorem merge_length_lt {ids : List Nat} {pair : Nat × Nat} (idx : Nat)
    (hp : pair ∈ adjPairs ids) : (merge_token_ids ids pair idx).length < ids.length := by
  induction ids, pair, idx using merge_token_ids.induct with
  | case1 a b rest pair idx h ih =>
      rw [merge_token_ids, if_pos h]
      have := merge_length_le rest pair idx
      simp only [List.length_cons]
      omega
  | case2 a b rest pair idx h ih =>
      rw [merge_token_ids, if_neg h]
      rw [adjPairs_cons₂] at hp
      rcases List.mem_cons.mp hp with h0 | h0
      · exact absurd ⟨congrArg Prod.fst h0.symm, congrArg Prod.snd h0.symm⟩ h
      · have := ih h0
        simp only [List.length_cons] at *
        omega
  | case3 ids pair idx h =>
      rcases ids with _ | ⟨a, _ | ⟨b, rest⟩⟩
      · simp [adjPairs] at hp
      · simp [adjPairs] at hp
      · exact absurd rfl (h a b rest)

theorem adjPairs_merge {q : Nat × Nat} {ids : List Nat} {pair : Nat × Nat} {idx : Nat}
    (hq : q ∈ adjPairs (merge_token_ids ids pair idx)) :
    q ∈ adjPairs ids ∨ q.1 = idx ∨ q.2 = idx := by
  induction ids, pair, idx using merge_token_ids.induct with
  | case1 a b rest pair idx h ih =>
      rw [merge_token_ids, if_pos h] at hq
      rcases mem_adjPairs_cons hq with ⟨c, t0, ht, h0 | h0⟩
      · exact Or.inr (Or.inl (by rw [h0]))
      · rw [← ht] at h0
        rcases ih h0 with h1 | h1
        · exact Or.inl (mem_adjPairs_tail _ (mem_adjPairs_tail _ h1))
        · exact Or.inr h1
  | case2 a b rest pair idx h ih =>
      rw [merge_token_ids, if_neg h] at hq
      rcases mem_adjPairs_cons hq with ⟨c, t0, ht, h0 | h0⟩
      · rcases merge_head_cases b rest pair idx with ⟨t, hm | hm⟩
        · rw [hm] at ht
          rcases ht with ⟨rfl, _⟩
          refine Or.inl ?_
          rw [h0, adjPairs_cons₂]
          exact List.mem_cons_self _ _
        · rw [hm] at ht
          rcases ht with ⟨rfl, _⟩
          exact Or.inr (Or.inr (by rw [h0]))
      · rw [← ht] at h0
        rcases ih h0 with h1 | h1
        · exact Or.inl (mem_adjPairs_tail _ h1)
        · exact Or.inr h1
  | case3 ids pair idx h =>
      rw [merge_of_no_two _ _ h] at hq
      exact Or.inl hq

theorem pair_not_adjPairs_merge {ids : List Nat} {pair : Nat × Nat} {idx : Nat}
    (h1 : idx ≠ pair.1) (h2 : idx ≠ pair.2) :
    pair ∉ adjPairs (merge_token_ids ids pair idx) := by
  revert h1 h2
  induction ids, pair, idx using merge_token_ids.induct with
  | case1 a b rest pair idx h ih =>
      intro h1 h2 hq
      rw [merge_token_ids, if_pos h] at hq
      rcases mem_adjPairs_cons hq with ⟨c, t0, ht, h0 | h0⟩
      · exact h1 (congrArg Prod.fst h0).symm
      · rw [← ht] at h0
        exact ih h1 h2 h0
  | case2 a b rest pair idx h ih =>
      intro h1 h2 hq
      rw [merge_token_ids, if_neg h] at hq
      rcases mem_adjPairs_cons hq with ⟨c, t0, ht, h0 | h0⟩
      · rcases merge_head_cases b rest pair idx with ⟨t, hm | hm⟩
        · rw [hm] at ht
          rcases ht with ⟨rfl, _⟩
          exact h ⟨(congrArg Prod.fst h0).symm, (congrArg Prod.snd h0).symm⟩
        · rw [hm] at ht
          rcases ht with ⟨rfl, _⟩
          exact h2 (congrArg Prod.snd h0).symm
      · rw [← ht] at h0
        exact ih h1 h2 h0
  | case3 ids pair idx h =>
      intro h1 h2 hq
      rw [merge_of_no_two _ _ h] at hq
      rcases ids with _ | ⟨a, _ | ⟨b, rest⟩⟩
      · simp [adjPairs] at hq
      · simp [adjPairs] at hq
      · exact absurd rfl (h a b rest)

theorem fast_of_no_two {ids : List Nat} (pair : Nat × Nat) (idx : Nat)
    (h : ∀ a b rest, ids ≠ a :: b :: rest) : fast_merge_inplace_token_ids ids pair idx = ids := by
  cases ids with
  | nil => simp [fast_merge_inplace_token_ids]
  | cons a t =>
      cases t with
      | nil => simp [fast_merge_inplace_token_ids]
      | cons b rest => exact absurd rfl (h a b rest)

/-- Whenever the replacement id differs from the first component of the pair,
the in-place strategy never rematches the freshly written id, and the two
merge strategies agree. -/
theorem merge_eq_fast {ids : List Nat} {pair : Nat × Nat} {idx : Nat} (h : idx ≠ pair.1) :
    merge_token_ids ids pair idx = fast_merge_inplace_token_ids ids pair idx := by
  revert h
  induction ids, pair, idx using fast_merge_inplace_token_ids.induct with
  | case1 a b rest pair idx hc ih =>
      intro h
      rw [fast_merge_inplace_token_ids, if_pos hc, ← ih h, merge_token_ids, if_pos hc]
      exact (merge_cons_not_head rest idx h).symm
  | case2 a b rest pair idx hc ih =>
      intro h
      rw [fast_merge_inplace_token_ids, if_neg hc, ← ih h, merge_token_ids, if_neg hc]
  | case3 ids pair idx hshape =>
      intro h
      rw [merge_of_no_two _ _ hshape, fast_of_no_two _ _ hshape]

theorem mergeCursor_eq_drop (ids : List Nat) (pair : Nat × Nat) (idx : Nat) (i : Nat) :
    mergeCursor ids pair idx i = merge_token_ids (List.drop i ids) pair idx := by
  have H : ∀ n i, ids.length - i ≤ n →
      mergeCursor ids pair idx i = merge_token_ids (List.drop i ids) pair idx := by
    intro n
    induction n with
    | zero =>
        intro i hi
        rw [mergeCursor, dif_neg (by omega), List.drop_eq_nil_of_le (by omega)]
        rfl
    | succ n ih =>
        intro i hi
        by_cases h : i < ids.length
        · rw [mergeCursor, dif_pos h]
          have hdrop : List.drop i ids = ids[i] :: List.drop (i + 1) ids :=
            List.drop_eq_getElem_cons h
          by_cases h2 : i + 1 < ids.length
          · have hdrop2 : List.drop (i + 1) ids = ids[i + 1] :: List.drop (i + 2) ids :=
              List.drop_eq_getElem_cons h2
            have hget2 : ids.get? (i + 1) = some ids[i + 1] := by
              rw [List.get?_eq_getElem?]; exact List.getElem?_eq_getElem h2
            by_cases hc : ids[i] = pair.1 ∧ ids[i + 1] = pair.2
            · rw [if_pos (by rw [List.get_eq_getElem, hget2]; exact ⟨hc.1, by rw [hc.2]⟩)]
              rw [hdrop, hdrop2, merge_token_ids, if_pos hc, ih (i + 2) (by omega)]
            · have hc2 : ¬(ids.get ⟨i, h⟩ = pair.1 ∧ ids.get? (i + 1) = some pair.2) := by
                rw [List.get_eq_getElem, hget2]
                intro hk
                exact hc ⟨hk.1, Option.some.inj hk.2⟩
              rw [if_neg hc2, hdrop, hdrop2, merge_token_ids, if_neg hc,
                ih (i + 1) (by omega), hdrop2, List.get_eq_getElem]
          · have hdrop2 : List.drop (i + 1) ids = [] := List.drop_eq_nil_of_le (by omega)
            have hget2 : ids.get? (i + 1) = none := by
              rw [List.get?_eq_getElem?]; exact List.getElem?_eq_none (by omega)
            have hc2 : ¬(ids.get ⟨i, h⟩ = pair.1 ∧ ids.get? (i + 1) = some pair.2) := by
              rw [hget2]; intro hk; exact Option.noConfusion hk.2
            rw [if_neg hc2, hdrop, ih (i + 1) (by omega), hdrop2, List.get_eq_getElem]
            rfl
        · rw [mergeCursor, dif_neg h, List.drop_eq_nil_of_le (by omega)]
          rfl
  exact H (ids.length - i) i le_rfl

/-- Claim C2 counterexample: with replacement id 97 equal to the first element
of the pair (97, 98), the rebuilding merge and the in-place merge disagree on
the input [97, 98, 98]: the rebuild yields [97, 98] but the in-place variant
rematches the freshly written 97 against the following 98 and yields [97]. -/
theorem c2_merge_strategies_counterexample :
    merge_token_ids [97, 98, 98] (97, 98) 97 ≠
      fast_merge_inplace_token_ids [97, 98, 98] (97, 98) 97 := by
  have h1 : merge_token_ids [97, 98, 98] (97, 98) 97 = [97, 98] := by decide
  have h2 : fast_merge_inplace_token_ids [97, 98, 98] (97, 98) 97 = [97] := by
    simp [fast_merge_inplace_token_ids]
  rw [h1, h2]
  decide

/-- Claim C2 (amended): for every list of ids, pair (a, b) and replacement id
r with r different from a, merge_token_ids and fast_merge_inplace_token_ids
return equal sequences.  (During training the replacement id is always a
freshly minted id, so this side condition always holds there.) -/
theorem c2_merge_strategies_agree (ids : List Nat) (pair : Nat × Nat) (idx : Nat)
    (h : idx ≠ pair.1) :
    merge_token_ids ids pair idx = fast_merge_inplace_token_ids ids pair idx :=
  merge_eq_fast h

theorem c2_merge_strategies_agree_witness :
    (256 : Nat) ≠ (97, 98).1 ∧
      merge_token_ids [97, 98, 98] (97, 98) 256 =
        fast_merge_inplace_token_ids [97, 98, 98] (97, 98) 256 :=
  ⟨by decide, c2_merge_strategies_agree [97, 98, 98] (97, 98) 256 (by decide)⟩

/-- Claim C3: merge_token_ids coincides with the cursor specification (left to
right scan, a match consumes both positions and emits one replacement id with
the cursor advancing by two, a non-match emits the original id and advances by
one); in particular on [a, a, a, a] with pair (a, a) the result is [r, r]. -/
theorem c3_merge_left_to_right :
    (∀ (ids : List Nat) (pair : Nat × Nat) (idx : Nat),
        merge_token_ids ids pair idx = mergeCursor ids pair idx 0) ∧
      ∀ a r : Nat, merge_token_ids [a, a, a, a] (a, a) r = [r, r] := by
  constructor
  · intro ids pair idx
    rw [mergeCursor_eq_drop, List.drop_zero]
  · intro a r
    simp [merge_token_ids]

/-! Association list lemmas. -/

theorem alookup_aupdate_self {α β : Type} [DecidableEq α] (l : List (α × β)) (k : α) (v : β) :
    alookup (aupdate l k v) k = some v := by
  induction l with
  | nil => simp [aupdate, alookup]
  | cons e rest ih =>
      obtain ⟨k0, v0⟩ := e
      by_cases h : k0 = k
      · subst h
        simp [aupdate, alookup]
      · simp [aupdate, alookup, h, ih]

theorem alookup_aupdate_ne {α β : Type} [DecidableEq α] (l : List (α × β)) {k k' : α} (v : β)
    (h : k' ≠ k) : alookup (aupdate l k v) k' = alookup l k' := by
  induction l with
  | nil =>
      simp only [aupdate, alookup]
      rw [if_neg (fun hh => h hh.symm)]
  | cons e rest ih =>
      obtain ⟨k0, v0⟩ := e
      by_cases h0 : k0 = k
      · subst h0
        simp only [aupdate, if_pos rfl, alookup]
        rw [if_neg (fun hh => h hh.symm), if_neg (fun hh => h hh.symm)]
      · simp only [aupdate, if_neg h0, alookup]
        by_cases h1 : k0 = k'
        · rw [if_pos h1, if_pos h1]
        · rw [if_neg h1, if_neg h1, ih]

theorem alookup_mem {α β : Type} [DecidableEq α] {l : List (α × β)} {k : α} {v : β}
    (h : alookup l k = some v) : (k, v) ∈ l := by
  induction l with
  | nil => simp [alookup] at h
  | cons e rest ih =>
      obtain ⟨k0, v0⟩ := e
      by_cases h0 : k0 = k
      · subst h0
        rw [alookup, if_pos rfl] at h
        rw [← Option.some.inj h]
        exact List.mem_cons_self _ _
      · rw [alookup, if_neg h0] at h
        exact List.mem_cons_of_mem _ (ih h)

theorem alookup_isSome_iff {α β : Type} [DecidableEq α] (l : List (α × β)) (k : α) :
    (alookup l k).isSome = true ↔ k ∈ l.map Prod.fst := by
  induction l with
  | nil => simp [alookup]
  | cons e rest ih =>
      obtain ⟨k0, v0⟩ := e
      by_cases h0 : k0 = k
      · subst h0
        simp [alookup]
      · simp only [alookup, if_neg h0, List.map_cons, List.mem_cons]
        rw [ih]
        constructor
        · exact Or.inr
        · rintro (h1 | h1)
          · exact absurd h1.symm h0
          · exact h1

theorem alookup_eq_none_iff {α β : Type} [DecidableEq α] (l : List (α × β)) (k : α) :
    alookup l k = none ↔ k ∉ l.map Prod.fst := by
  rw [← alookup_isSome_iff]
  cases alookup l k <;> simp

theorem aupdate_of_not_mem {α β : Type} [DecidableEq α] {l : List (α × β)} {k : α} (v : β)
    (h : k ∉ l.map Prod.fst) : aupdate l k v = l ++ [(k, v)] := by
  induction l with
  | nil => rfl
  | cons e rest ih =>
      obtain ⟨k0, v0⟩ := e
      simp only [List.map_cons, List.mem_cons] at h
      push_neg at h
      rw [aupdate, if_neg (fun hh => h.1 hh.symm), List.cons_append, ih h.2]

theorem mem_alookup_of_nodup {α β : Type} [DecidableEq α] {l : List (α × β)} {k : α} {v : β}
    (hnd : (l.map Prod.fst).Nodup) (h : (k, v) ∈ l) : alookup l k = some v := by
  induction l with
  | nil => simp at h
  | cons e rest ih =>
      obtain ⟨k0, v0⟩ := e
      simp only [List.map_cons, List.nodup_cons] at hnd
      rcases List.mem_cons.mp h with h0 | h0
      · injection h0 with h1 h2
        subst h1
        subst h2
        rw [alookup, if_pos rfl]
      · have hk : k0 ≠ k := by
          intro hh
          subst hh
          exact hnd.1 (List.mem_map.mpr ⟨(k0, v), h0, rfl⟩)
        rw [alookup, if_neg hk]
        exact ih hnd.2 h0

/-! Statistics accumulation lemmas. -/

theorem bumpCount_keys_mem {α : Type} [DecidableEq α] (l : List (α × Nat)) (x k : α) :
    k ∈ (bumpCount l x).map Prod.fst ↔ k ∈ l.map Prod.fst ∨ k = x := by
  induction l with
  | nil => simp [bumpCount]
  | cons e rest ih =>
      obtain ⟨k0, c0⟩ := e
      by_cases h : k0 = x
      · subst h
        simp [bumpCount]
        tauto
      · simp only [bumpCount, if_neg h, List.map_cons, List.mem_cons, ih]
        tauto

theorem bumpCount_nodup_keys {α : Type} [DecidableEq α] {l : List (α × Nat)} (x : α)
    (h : (l.map Prod.fst).Nodup) : ((bumpCount l x).map Prod.fst).Nodup := by
  induction l with
  | nil => simp [bumpCount]
  | cons e rest ih =>
      obtain ⟨k0, c0⟩ := e
      simp only [List.map_cons, List.nodup_cons] at h
      by_cases h0 : k0 = x
      · subst h0
        rw [bumpCount, if_pos rfl, List.map_cons, List.nodup_cons]
        exact ⟨h.1, h.2⟩
      · simp only [bumpCount, if_neg h0, List.map_cons, List.nodup_cons]
        refine ⟨fun hmem => ?_, ih h.2⟩
        rw [bumpCount_keys_mem] at hmem
        rcases hmem with h1 | h1
        · exact h.1 h1
        · exact h0 h1

theorem get_stats_eq_foldl (l : List Nat) (counts : List ((Nat × Nat) × Nat)) :
    get_stats l counts = (adjPairs l).foldl bumpCount counts := by
  induction l generalizing counts with
  | nil => rfl
  | cons a t ih =>
      cases t with
      | nil => rfl
      | cons b rest =>
          rw [get_stats, adjPairs_cons₂, List.foldl_cons, ih]

theorem accumStats_cons (c : List Nat) (ids : List (List Nat)) :
    pairStream (c :: ids) = adjPairs c ++ pairStream ids := by
  simp [pairStream]

theorem accumStats_eq_foldl (ids : List (List Nat)) :
    accumStats ids = (pairStream ids).foldl bumpCount [] := by
  have H : ∀ (ids : List (List Nat)) (acc : List ((Nat × Nat) × Nat)),
      ids.foldl (fun acc chunk_ids => get_stats chunk_ids acc) acc =
        (pairStream ids).foldl bumpCount acc := by
    intro ids
    induction ids with
    | nil => intro acc; rfl
    | cons c rest ih =>
        intro acc
        rw [List.foldl_cons, ih, accumStats_cons, List.foldl_append, get_stats_eq_foldl]
    
  exact H ids []

theorem foldl_bump_keys_mem {α : Type} [DecidableEq α] (s : List α) (c : List (α × Nat)) (k : α) :
    k ∈ ((s.foldl bumpCount c).map Prod.fst) ↔ k ∈ c.map Prod.fst ∨ k ∈ s := by
  induction s generalizing c with
  | nil => simp
  | cons x s0 ih =>
      rw [List.foldl_cons, ih, bumpCount_keys_mem]
      simp only [List.mem_cons]
      tauto

theorem foldl_bump_nodup {α : Type} [DecidableEq α] (s : List α) (c : List (α × Nat))
    (h : (c.map Prod.fst).Nodup) : ((s.foldl bumpCount c).map Prod.fst).Nodup := by
  induction s generalizing c with
  | nil => exact h
  | cons x s0 ih => exact ih _ (bumpCount_nodup_keys x h)

theorem mem_accumStats_keys (ids : List (List Nat)) (p : Nat × Nat) :
    p ∈ (accumStats ids).map Prod.fst ↔ p ∈ pairStream ids := by
  rw [accumStats_eq_foldl, foldl_bump_keys_mem]
  simp

theorem accumStats_nodup (ids : List (List Nat)) :
    ((accumStats ids).map Prod.fst).Nodup := by
  rw [accumStats_eq_foldl]
  exact foldl_bump_nodup _ _ (by simp)

/-! Facts about the selector maxByFirst. -/

theorem foldl_max_facts (x : (Nat × Nat) × Nat) (xs : List ((Nat × Nat) × Nat)) :
    (xs.foldl (fun best y => if best.2 < y.2 then y else best) x = x ∧
        ∀ f ∈ xs, f.2 ≤ x.2) ∨
      ∃ l1 l2, xs = l1 ++ (xs.foldl (fun best y => if best.2 < y.2 then y else best) x) :: l2 ∧
        x.2 < (xs.foldl (fun best y => if best.2 < y.2 then y else best) x).2 ∧
        (∀ f ∈ l1, f.2 < (xs.foldl (fun best y => if best.2 < y.2 then y else best) x).2) ∧
        ∀ f ∈ l2, f.2 ≤ (xs.foldl (fun best y => if best.2 < y.2 then y else best) x).2 := by
  induction xs generalizing x with
  | nil => exact Or.inl ⟨rfl, by simp⟩
  | cons y ys ih =>
      rw [List.foldl_cons]
      by_cases h : x.2 < y.2
      · rw [if_pos h]
        rcases ih y with ⟨heq, hle⟩ | ⟨l1, l2, hsplit, hlt, hl1, hl2⟩
        · refine Or.inr ⟨[], ys, ?_, ?_, ?_, ?_⟩
          · rw [heq]; rfl
          · rw [heq]; exact h
          · simp
          · rw [heq]; exact hle
        · refine Or.inr ⟨y :: l1, l2, ?_, ?_, ?_, ?_⟩
          · rw [List.cons_append, ← hsplit]
          · exact lt_trans h hlt
          · intro f hf
            rcases List.mem_cons.mp hf with h0 | h0
            · rw [h0]; exact hlt
            · exact hl1 f h0
          · exact hl2
      · rw [if_neg h]
        rcases ih x with ⟨heq, hle⟩ | ⟨l1, l2, hsplit, hlt, hl1, hl2⟩
        · refine Or.inl ⟨heq, ?_⟩
          intro f hf
          rcases List.mem_cons.mp hf with h0 | h0
          · rw [h0]; omega
          · exact hle f h0
        · refine Or.inr ⟨y :: l1, l2, ?_, hlt, ?_, hl2⟩
          · rw [List.cons_append, ← hsplit]
          · intro f hf
            rcases List.mem_cons.mp hf with h0 | h0
            · rw [h0]; omega
            · exact hl1 f h0

theorem maxByFirst_split {l : List ((Nat × Nat) × Nat)} {e : (Nat × Nat) × Nat}
    (h : maxByFirst l = some e) :
    ∃ l1 l2, l = l1 ++ e :: l2 ∧ (∀ f ∈ l1, f.2 < e.2) ∧ ∀ f ∈ l2, f.2 ≤ e.2 := by
  cases l with
  | nil => simp [maxByFirst] at h
  | cons x xs =>
      rw [maxByFirst] at h
      have he := Option.some.inj h
      rcases foldl_max_facts x xs with ⟨heq, hle⟩ | ⟨l1, l2, hsplit, hlt, hl1, hl2⟩
      · refine ⟨[], xs, ?_, by simp, ?_⟩
        · rw [← he, heq]; rfl
        · rw [← he, heq]
          exact hle
      · refine ⟨x :: l1, l2, ?_, ?_, ?_⟩
        · rw [← he, List.cons_append, ← hsplit]
        · intro f hf
          rcases List.mem_cons.mp hf with h0 | h0
          · rw [h0, ← he]; exact hlt
          · rw [← he]; exact hl1 f h0
        · rw [← he]; exact hl2

theorem maxByFirst_mem {l : List ((Nat × Nat) × Nat)} {e : (Nat × Nat) × Nat}
    (h : maxByFirst l = some e) : e ∈ l := by
  rcases maxByFirst_split h with ⟨l1, l2, hsplit, _, _⟩
  rw [hsplit]
  exact List.mem_append.mpr (Or.inr (List.mem_cons_self _ _))

theorem maxByFirst_le {l : List ((Nat × Nat) × Nat)} {e : (Nat × Nat) × Nat}
    (h : maxByFirst l = some e) : ∀ f ∈ l, f.2 ≤ e.2 := by
  rcases maxByFirst_split h with ⟨l1, l2, hsplit, hl1, hl2⟩
  intro f hf
  rw [hsplit] at hf
  rcases List.mem_append.mp hf with h0 | h0
  · exact le_of_lt (hl1 f h0)
  · rcases List.mem_cons.mp h0 with h1 | h1
    · rw [h1]
    · exact hl2 f h1

theorem maxByFirst_none_iff (l : List ((Nat × Nat) × Nat)) :
    maxByFirst l = none ↔ l = [] := by
  cases l <;> simp [maxByFirst]

/-! Facts about the selector minByRank and encode_chunk termination. -/

theorem rankBetter_irrefl (a : Option Nat) : rankBetter a a = false := by
  cases a <;> simp [rankBetter]

theorem rankBetter_trans_left {a b c : Option Nat} (h1 : rankBetter a b = true)
    (h2 : rankBetter a c = false) : rankBetter b c = false := by
  cases a <;> cases b <;> cases c <;> simp [rankBetter] at * <;> omega

theorem rankBetter_trans_right {a b c : Option Nat} (h1 : rankBetter a b = false)
    (h2 : rankBetter b c = false) : rankBetter a c = false := by
  cases a <;> cases b <;> cases c <;> simp [rankBetter] at * <;> omega

theorem foldl_min_facts (merges : List ((Nat × Nat) × Nat)) (x : (Nat × Nat) × Nat)
    (xs : List ((Nat × Nat) × Nat)) :
    (xs.foldl
        (fun best y =>
          if rankBetter (alookup merges y.1) (alookup merges best.1) then y else best) x ∈
        x :: xs) ∧
      ∀ e ∈ x :: xs,
        rankBetter (alookup merges e.1)
          (alookup merges
            (xs.foldl
              (fun best y =>
                if rankBetter (alookup merges y.1) (alookup merges best.1) then y else best)
              x).1) = false := by
  induction xs generalizing x with
  | nil =>
      refine ⟨List.mem_cons_self _ _, ?_⟩
      intro e he
      rcases List.mem_cons.mp he with h0 | h0
      · rw [h0, List.foldl_nil]
        exact rankBetter_irrefl _
      · simp at h0
  | cons y ys ih =>
      rw [List.foldl_cons]
      by_cases h : rankBetter (alookup merges y.1) (alookup merges x.1) = true
      · rw [if_pos h]
        rcases ih y with ⟨hmem, hmin⟩
        constructor
        · rcases List.mem_cons.mp hmem with h0 | h0
          · rw [h0]
            exact List.mem_cons_of_mem _ (List.mem_cons_self _ _)
          · exact List.mem_cons_of_mem _ (List.mem_cons_of_mem _ h0)
        · intro e he
          rcases List.mem_cons.mp he with h0 | h0
          · rw [h0]
            exact rankBetter_trans_left h (hmin y (List.mem_cons_self _ _))
          · exact hmin e h0
      · rw [if_neg h]
        rcases ih x with ⟨hmem, hmin⟩
        constructor
        · rcases List.mem_cons.mp hmem with h0 | h0
          · rw [h0]
            exact List.mem_cons_self _ _
          · exact List.mem_cons_of_mem _ (List.mem_cons_of_mem _ h0)
        · intro e he
          rcases List.mem_cons.mp he with h0 | h0
          · exact h0 ▸ hmin x (List.mem_cons_self _ _)
          · rcases List.mem_cons.mp h0 with h1 | h1
            · rw [h1]
              exact rankBetter_trans_right (Bool.eq_false_iff.mpr h)
                (hmin x (List.mem_cons_self _ _))
            · exact hmin e (List.mem_cons_of_mem _ h1)

theorem minByRank_mem {merges l : List ((Nat × Nat) × Nat)} {p : Nat × Nat}
    (h : minByRank merges l = some p) : ∃ c, (p, c) ∈ l := by
  cases l with
  | nil => simp [minByRank] at h
  | cons x xs =>
      rw [minByRank] at h
      have he := Option.some.inj h
      rcases foldl_min_facts merges x xs with ⟨hmem, _⟩
      refine ⟨(xs.foldl
        (fun best y =>
          if rankBetter (alookup merges y.1) (alookup merges best.1) then y else best) x).2, ?_⟩
      rw [← he]
      simpa using hmem

theorem minByRank_min {merges l : List ((Nat × Nat) × Nat)} {p : Nat × Nat}
    (h : minByRank merges l = some p) :
    ∀ e ∈ l, rankBetter (alookup merges e.1) (alookup merges p) = false := by
  cases l with
  | nil => simp [minByRank] at h
  | cons x xs =>
      rw [minByRank] at h
      have he := Option.some.inj h
      rcases foldl_min_facts merges x xs with ⟨_, hmin⟩
      intro e hee
      rw [← he]
      exact hmin e hee

theorem get_stats_keys_mem (ids : List Nat) (p : Nat × Nat) :
    p ∈ (get_stats ids []).map Prod.fst ↔ p ∈ adjPairs ids := by
  rw [get_stats_eq_foldl, foldl_bump_keys_mem]
  simp

theorem selected_pair_adj {merges : List ((Nat × Nat) × Nat)} {ids : List Nat} {p : Nat × Nat}
    (h : minByRank merges (get_stats ids []) = some p) : p ∈ adjPairs ids := by
  rcases minByRank_mem h with ⟨c, hc⟩
  rw [← get_stats_keys_mem]
  exact List.mem_map.mpr ⟨(p, c), hc, rfl⟩

theorem encode_chunk_fuel_small {merges : List ((Nat × Nat) × Nat)} (f : Nat) {ids : List Nat}
    (h : ids.length < 2) : encode_chunk_fuel merges f ids = ids := by
  cases f with
  | zero => rfl
  | succ f => rw [encode_chunk_fuel, if_pos h]

theorem encode_chunk_fuel_break {merges : List ((Nat × Nat) × Nat)} (f : Nat) {ids : List Nat}
    {p : Nat × Nat} (h2 : ¬ ids.length < 2) (hsel : minByRank merges (get_stats ids []) = some p)
    (hlook : alookup merges p = none) : encode_chunk_fuel merges (f + 1) ids = ids := by
  simp only [encode_chunk_fuel, if_neg h2, hsel, hlook]

theorem encode_chunk_fuel_step {merges : List ((Nat × Nat) × Nat)} (f : Nat) {ids : List Nat}
    {p : Nat × Nat} {idx : Nat} (h2 : ¬ ids.length < 2)
    (hsel : minByRank merges (get_stats ids []) = some p)
    (hlook : alookup merges p = some idx) :
    encode_chunk_fuel merges (f + 1) ids =
      encode_chunk_fuel merges f (merge_token_ids ids p idx) := by
  simp only [encode_chunk_fuel, if_neg h2, hsel, hlook]

theorem encode_chunk_fuel_of_le {merges : List ((Nat × Nat) × Nat)} :
    ∀ (n f1 f2 : Nat) (ids : List Nat), ids.length ≤ n → ids.length ≤ f1 →
      ids.length ≤ f2 → encode_chunk_fuel merges f1 ids = encode_chunk_fuel merges f2 ids := by
  intro n
  induction n with
  | zero =>
      intro f1 f2 ids hn h1 h2
      rw [encode_chunk_fuel_small f1 (by omega), encode_chunk_fuel_small f2 (by omega)]
  | succ n ih =>
      intro f1 f2 ids hn h1 h2
      by_cases hlen : ids.length < 2
      · rw [encode_chunk_fuel_small f1 hlen, encode_chunk_fuel_small f2 hlen]
      · obtain ⟨f1, rfl⟩ : ∃ g, f1 = g + 1 := ⟨f1 - 1, by omega⟩
        obtain ⟨f2, rfl⟩ : ∃ g, f2 = g + 1 := ⟨f2 - 1, by omega⟩
        cases hsel : minByRank merges (get_stats ids []) with
        | none =>
            have hnil : get_stats ids [] = [] := by
              cases hgs : get_stats ids [] with
              | nil => rfl
              | cons e t => rw [hgs, minByRank] at hsel; exact Option.noConfusion hsel
            rw [encode_chunk_fuel, encode_chunk_fuel, if_neg hlen, if_neg hlen, hsel]
        | some pair =>
            cases hlook : alookup merges pair with
            | none =>
                rw [encode_chunk_fuel_break f1 hlen hsel hlook,
                  encode_chunk_fuel_break f2 hlen hsel hlook]
            | some idx =>
                have hadj : pair ∈ adjPairs ids := selected_pair_adj hsel
                have hdec := merge_length_lt idx hadj
                rw [encode_chunk_fuel_step f1 hlen hsel hlook,
                  encode_chunk_fuel_step f2 hlen hsel hlook]
                exact ih f1 f2 (merge_token_ids ids pair idx) (by omega) (by omega) (by omega)

/-- Claim C10: the merge loop of _encode_chunk terminates.  A selected pair
that passes the merge-table membership check came from the sequence's own
pair statistics, so it is adjacent in the current sequence and merging it
strictly shrinks the sequence; consequently a fuel equal to the initial
length (as used by encode_chunk) is always enough, and any larger fuel
computes the same result. -/
theorem c10_encode_chunk_terminates :
    (∀ (merges : List ((Nat × Nat) × Nat)) (ids : List Nat) (p : Nat × Nat),
        minByRank merges (get_stats ids []) = some p → p ∈ adjPairs ids) ∧
      (∀ (ids : List Nat) (pair : Nat × Nat) (idx : Nat), pair ∈ adjPairs ids →
          (merge_token_ids ids pair idx).length < ids.length) ∧
      ∀ (merges : List ((Nat × Nat) × Nat)) (fuel : Nat) (ids : List Nat),
        ids.length ≤ fuel → encode_chunk_fuel merges fuel ids = encode_chunk merges ids := by
  refine ⟨fun merges ids p h => selected_pair_adj h,
    fun ids pair idx h => merge_length_lt idx h, ?_⟩
  intro merges fuel ids hf
  exact encode_chunk_fuel_of_le fuel fuel ids.length ids hf hf le_rfl

theorem c10_encode_chunk_terminates_witness :
    (minByRank [((5, 5), 256)] (get_stats [5, 5] []) = some (5, 5) → (5, 5) ∈ adjPairs [5, 5]) ∧
      ((5, 5) ∈ adjPairs [5, 5] → (merge_token_ids [5, 5] (5, 5) 256).length < 2) ∧
      ((2 : Nat) ≤ 9 → encode_chunk_fuel [((5, 5), 256)] 9 [5, 5] =
        encode_chunk [((5, 5), 256)] [5, 5]) :=
  ⟨fun h => c10_encode_chunk_terminates.1 [((5, 5), 256)] [5, 5] (5, 5) h,
    fun h => c10_encode_chunk_terminates.2.1 [5, 5] (5, 5) 256 h,
    fun h => c10_encode_chunk_terminates.2.2 [((5, 5), 256)] 9 [5, 5] h⟩

/-! Training loop: structure of the recorded merges. -/

theorem trainLoop_zero (ids : List (List Nat)) (merges : List ((Nat × Nat) × Nat))
    (vocab : List (Nat × List Nat)) (n : Nat) (amb : Bool) :
    trainLoop ids merges vocab n amb 0 = ⟨merges, vocab, amb⟩ := rfl

theorem trainLoop_succ_none {ids : List (List Nat)} (merges : List ((Nat × Nat) × Nat))
    (vocab : List (Nat × List Nat)) (n : Nat) (amb : Bool) (r : Nat)
    (hsel : maxByFirst (accumStats ids) = none) :
    trainLoop ids merges vocab n amb (r + 1) = ⟨merges, vocab, amb⟩ := by
  simp only [trainLoop, hsel]

theorem trainLoop_succ_some {ids : List (List Nat)} (merges : List ((Nat × Nat) × Nat))
    (vocab : List (Nat × List Nat)) (n : Nat) (amb : Bool) (r : Nat) {pair : Nat × Nat} {cnt : Nat}
    (hsel : maxByFirst (accumStats ids) = some (pair, cnt)) :
    trainLoop ids merges vocab n amb (r + 1) =
      trainLoop (ids.map (fun chunk_ids => merge_token_ids chunk_ids pair n))
        (aupdate merges pair n)
        (aupdate vocab n ((alookup vocab pair.1).getD [] ++ (alookup vocab pair.2).getD []))
        (n + 1)
        (amb || decide (1 < ((accumStats ids).filter (fun e => e.2 == cnt)).length)) r := by
  simp only [trainLoop, hsel]

theorem mem_pairStream {p : Nat × Nat} {ids : List (List Nat)} :
    p ∈ pairStream ids ↔ ∃ c ∈ ids, p ∈ adjPairs c := by
  simp [pairStream]

theorem selected_in_stream {ids : List (List Nat)} {pair : Nat × Nat} {cnt : Nat}
    (hsel : maxByFirst (accumStats ids) = some (pair, cnt)) : pair ∈ pairStream ids := by
  rw [← mem_accumStats_keys]
  exact List.mem_map.mpr ⟨(pair, cnt), maxByFirst_mem hsel, rfl⟩

theorem stream_comp_lt {pair : Nat × Nat} {ids : List (List Nat)} {n : Nat}
    (hb : ∀ c ∈ ids, ∀ x ∈ c, x < n) (hp : pair ∈ pairStream ids) :
    pair.1 < n ∧ pair.2 < n := by
  rcases mem_pairStream.mp hp with ⟨c, hc, hadj⟩
  rcases mem_of_mem_adjPairs hadj with ⟨h1, h2⟩
  exact ⟨hb c hc _ h1, hb c hc _ h2⟩

theorem stream_merge_step {q : Nat × Nat} {ids : List (List Nat)} {pair : Nat × Nat} {n : Nat}
    (hq : q ∈ pairStream (ids.map (fun chunk_ids => merge_token_ids chunk_ids pair n))) :
    q ∈ pairStream ids ∨ q.1 = n ∨ q.2 = n := by
  rcases mem_pairStream.mp hq with ⟨c, hc, hadj⟩
  rcases List.mem_map.mp hc with ⟨c0, hc0, rfl⟩
  rcases adjPairs_merge hadj with h | h
  · exact Or.inl (mem_pairStream.mpr ⟨c0, hc0, h⟩)
  · exact Or.inr h

theorem char_toNat_lt (c : Char) : c.toNat < 0x110000 := by
  have h := c.valid
  rcases h with h | h
  · have : c.val.toNat < 0xd800 := h
    have he : c.toNat = c.val.toNat := rfl
    omega
  · have : 0xdfff < c.val.toNat ∧ c.val.toNat < 0x110000 := h
    have he : c.toNat = c.val.toNat := rfl
    omega

theorem utf8EncodeChar_byte_lt {n b : Nat} (hb : b ∈ utf8EncodeChar n) (hn : n < 0x110000) :
    b < 256 := by
  rw [utf8EncodeChar] at hb
  split_ifs at hb with h1 h2 h3
  all_goals simp only [List.mem_cons, List.mem_singleton, List.not_mem_nil, or_false] at hb
  · omega
  · rcases hb with rfl | rfl <;> omega
  · rcases hb with rfl | rfl | rfl <;> omega
  · rcases hb with rfl | rfl | rfl | rfl <;> omega

theorem utf8Encode_byte_lt {s : List Char} {b : Nat} (hb : b ∈ utf8Encode s) : b < 256 := by
  rw [utf8Encode] at hb
  rcases List.mem_flatten.mp hb with ⟨l, hl, hbl⟩
  rcases List.mem_map.mp hl with ⟨c, _, rfl⟩
  exact utf8EncodeChar_byte_lt hbl (char_toNat_lt c)

theorem trainLoop_merges_structure :
    ∀ (r : Nat) (ids : List (List Nat)) (merges : List ((Nat × Nat) × Nat))
      (vocab : List (Nat × List Nat)) (n : Nat) (amb : Bool),
      (∀ c ∈ ids, ∀ x ∈ c, x < n) →
      (∀ e ∈ merges, e.1.1 < n ∧ e.1.2 < n) →
      (∀ e ∈ merges, e.1 ∉ pairStream ids) →
      (merges.map Prod.fst).Nodup →
      ∃ extra, (trainLoop ids merges vocab n amb r).merges = merges ++ extra ∧
        extra.map Prod.snd = List.range' n extra.length ∧
        ((merges ++ extra).map Prod.fst).Nodup := by
  intro r
  induction r with
  | zero =>
      intro ids merges vocab n amb hb hcomp hnadj hnd
      exact ⟨[], by simp [trainLoop_zero], rfl, by simpa using hnd⟩
  | succ r ih =>
      intro ids merges vocab n amb hb hcomp hnadj hnd
      cases hsel : maxByFirst (accumStats ids) with
      | none =>
          rw [trainLoop_succ_none merges vocab n amb r hsel]
          exact ⟨[], by simp, rfl, by simpa using hnd⟩
      | some e =>
          obtain ⟨pair, cnt⟩ := e
          rw [trainLoop_succ_some merges vocab n amb r hsel]
          have hstream : pair ∈ pairStream ids := selected_in_stream hsel
          have hcl : pair.1 < n ∧ pair.2 < n := stream_comp_lt hb hstream
          have hfresh : pair ∉ merges.map Prod.fst := by
            intro hmem
            rcases List.mem_map.mp hmem with ⟨e, he, hpe⟩
            exact hnadj e he (hpe ▸ hstream)
          rw [aupdate_of_not_mem n hfresh]
          have hb2 : ∀ c ∈ ids.map (fun chunk_ids => merge_token_ids chunk_ids pair n),
              ∀ x ∈ c, x < n + 1 := by
            intro c hc x hx
            rcases List.mem_map.mp hc with ⟨c0, hc0, rfl⟩
            rcases mem_merge hx with h | h
            · exact lt_trans (hb c0 hc0 x h) (Nat.lt_succ_self n)
            · omega
          have hcomp2 : ∀ e ∈ merges ++ [(pair, n)], e.1.1 < n + 1 ∧ e.1.2 < n + 1 := by
            intro e he
            rcases List.mem_append.mp he with h | h
            · have := hcomp e h
              omega
            · rcases List.mem_singleton.mp h with rfl
              simp only []
              omega
          have hnadj2 : ∀ e ∈ merges ++ [(pair, n)],
              e.1 ∉ pairStream (ids.map (fun chunk_ids => merge_token_ids chunk_ids pair n)) := by
            intro e he hq
            rcases List.mem_append.mp he with h | h
            · rcases stream_merge_step hq with h1 | h1 | h1
              · exact hnadj e h h1
              · have := (hcomp e h).1
                omega
              · have := (hcomp e h).2
                omega
            · rcases List.mem_singleton.mp h with rfl
              simp only [] at hq
              rcases mem_pairStream.mp hq with ⟨c, hc, hadj⟩
              rcases List.mem_map.mp hc with ⟨c0, hc0, rfl⟩
              exact pair_not_adjPairs_merge (by omega) (by omega) hadj
          have hnd2 : ((merges ++ [(pair, n)]).map Prod.fst).Nodup := by
            rw [List.map_append, List.nodup_append]
            refine ⟨hnd, by simp, ?_⟩
            simp only [List.map_cons, List.map_nil, List.disjoint_singleton]
            exact hfresh
          rcases ih _ _ _ _ _ hb2 hcomp2 hnadj2 hnd2 with ⟨extra, hout, hsnd, hndout⟩
          refine ⟨(pair, n) :: extra, ?_, ?_, ?_⟩
          · rw [hout, List.append_assoc]
            rfl
          · rw [List.map_cons, hsnd, List.length_cons, List.range'_succ]
          · rw [List.append_assoc] at hndout
            exact hndout

/-- Claim C5: after any completed train(text, v), the recorded merges carry
result ids exactly 256, 257, ... with no gaps or repeats, and no pair is ever
recorded twice as a merge key. -/
theorem c5_merge_ids_contiguous (split : List Char → List (List Char)) (text : List Char)
    (v : Nat) (tr : TrainResult) (h : train split text v = some tr) :
    tr.merges.map Prod.snd = List.range' 256 tr.merges.length ∧
      (tr.merges.map Prod.fst).Nodup := by
  rw [train] at h
  by_cases hv : v < 256
  · rw [if_pos hv] at h
    exact Option.noConfusion h
  · rw [if_neg hv] at h
    have htr := Option.some.inj h
    have hb : ∀ c ∈ (split text).map (fun chunk => utf8Encode chunk), ∀ x ∈ c, x < 256 := by
      intro c hc x hx
      rcases List.mem_map.mp hc with ⟨c0, hc0, rfl⟩
      exact utf8Encode_byte_lt hx
    rcases trainLoop_merges_structure (v - 256) _ [] baseVocab 256 false hb (by simp) (by simp)
        (by simp) with ⟨extra, hout, hsnd, hnd⟩
    rw [htr] at hout
    rw [hout]
    simp only [List.nil_append] at hsnd hnd ⊢
    exact ⟨hsnd, hnd⟩

theorem c5_merge_ids_contiguous_witness :
    train (fun t => [t]) [] 256 = some ⟨[], baseVocab, false⟩ ∧
      (TrainResult.mk [] baseVocab false).merges.map Prod.snd =
        List.range' 256 (TrainResult.mk [] baseVocab false).merges.length ∧
      ((TrainResult.mk [] baseVocab false).merges.map Prod.fst).Nodup :=
  ⟨rfl, c5_merge_ids_contiguous (fun t => [t]) [] 256 ⟨[], baseVocab, false⟩ rfl⟩

/-! The ambiguity flag. -/

theorem hasTie_succ_none {ids : List (List Nat)} (n r : Nat)
    (hsel : maxByFirst (accumStats ids) = none) : hasTie ids n (r + 1) = false := by
  simp only [hasTie, hsel]

theorem hasTie_succ_some {ids : List (List Nat)} (n r : Nat) {pair : Nat × Nat} {cnt : Nat}
    (hsel : maxByFirst (accumStats ids) = some (pair, cnt)) :
    hasTie ids n (r + 1) =
      (decide (1 < ((accumStats ids).filter (fun e => e.2 == cnt)).length) ||
        hasTie (ids.map (fun chunk_ids => merge_token_ids chunk_ids pair n)) (n + 1) r) := by
  simp only [hasTie, hsel]

theorem trainLoop_ambiguous_eq :
    ∀ (r : Nat) (ids : List (List Nat)) (merges : List ((Nat × Nat) × Nat))
      (vocab : List (Nat × List Nat)) (n : Nat) (amb : Bool),
      (trainLoop ids merges vocab n amb r).ambiguous = (amb || hasTie ids n r) := by
  intro r
  induction r with
  | zero =>
      intro ids merges vocab n amb
      rw [trainLoop_zero]
      simp [hasTie]
  | succ r ih =>
      intro ids merges vocab n amb
      cases hsel : maxByFirst (accumStats ids) with
      | none =>
          rw [trainLoop_succ_none merges vocab n amb r hsel, hasTie_succ_none n r hsel]
          simp
      | some e =>
          obtain ⟨pair, cnt⟩ := e
          rw [trainLoop_succ_some merges vocab n amb r hsel, ih, hasTie_succ_some n r hsel,
            Bool.or_assoc]

theorem trainLoop_indep_amb :
    ∀ (r : Nat) (ids : List (List Nat)) (merges : List ((Nat × Nat) × Nat))
      (vocab : List (Nat × List Nat)) (n : Nat) (a1 a2 : Bool),
      (trainLoop ids merges vocab n a1 r).merges = (trainLoop ids merges vocab n a2 r).merges ∧
        (trainLoop ids merges vocab n a1 r).vocab = (trainLoop ids merges vocab n a2 r).vocab := by
  intro r
  induction r with
  | zero =>
      intro ids merges vocab n a1 a2
      rw [trainLoop_zero, trainLoop_zero]
      exact ⟨rfl, rfl⟩
  | succ r ih =>
      intro ids merges vocab n a1 a2
      cases hsel : maxByFirst (accumStats ids) with
      | none =>
          rw [trainLoop_succ_none merges vocab n a1 r hsel,
            trainLoop_succ_none merges vocab n a2 r hsel]
          exact ⟨rfl, rfl⟩
      | some e =>
          obtain ⟨pair, cnt⟩ := e
          rw [trainLoop_succ_some merges vocab n a1 r hsel,
            trainLoop_succ_some merges vocab n a2 r hsel]
          exact ih _ _ _ _ _ _

/-- Claim C9: the flag returned by train is true exactly when some executed
training round had two or more distinct pairs tied for the maximum count
(the spec-side replay predicate hasTie), and the flag argument threaded
through the training loop never influences the recorded merges or the
vocabulary. -/
theorem c9_ambiguous_flag :
    (∀ (split : List Char → List (List Char)) (text : List Char) (v : Nat) (tr : TrainResult),
        train split text v = some tr →
          tr.ambiguous = hasTie ((split text).map (fun chunk => utf8Encode chunk)) 256
            (v - 256)) ∧
      ∀ (r : Nat) (ids : List (List Nat)) (merges : List ((Nat × Nat) × Nat))
        (vocab : List (Nat × List Nat)) (n : Nat) (a1 a2 : Bool),
        (trainLoop ids merges vocab n a1 r).merges = (trainLoop ids merges vocab n a2 r).merges ∧
          (trainLoop ids merges vocab n a1 r).vocab = (trainLoop ids merges vocab n a2 r).vocab := by
  refine ⟨?_, trainLoop_indep_amb⟩
  intro split text v tr h
  rw [train] at h
  by_cases hv : v < 256
  · rw [if_pos hv] at h
    exact Option.noConfusion h
  · rw [if_neg hv] at h
    have htr := Option.some.inj h
    rw [← htr, trainLoop_ambiguous_eq]
    simp

theorem c9_ambiguous_flag_witness :
    train (fun t => [t]) [] 256 = some ⟨[], baseVocab, false⟩ ∧
      (TrainResult.mk [] baseVocab false).ambiguous =
        hasTie (((fun (t : List Char) => [t]) []).map (fun chunk => utf8Encode chunk)) 256
          (256 - 256) :=
  ⟨rfl, c9_ambiguous_flag.1 (fun t => [t]) [] 256 ⟨[], baseVocab, false⟩ rfl⟩

/-! Error handling of train and decode. -/

theorem trainLoop_no_pairs {ids : List (List Nat)} (vocab : List (Nat × List Nat)) (n : Nat)
    (amb : Bool) (r : Nat) (hs : accumStats ids = []) :
    (trainLoop ids [] vocab n amb r).merges = [] := by
  cases r with
  | zero => rw [trainLoop_zero]
  | succ r =>
      rw [trainLoop_succ_none [] vocab n amb r (by rw [hs, maxByFirst])]

/-- Claim C8: train rejects a target vocabulary size below 256 (the failing
assert is modelled by the none result) and never fails for a size of at least
256; a corpus with no adjacent pair at all is not an error and yields zero
merges (fewer than requested). -/
theorem c8_train_precondition :
    (∀ (split : List Char → List (List Char)) (text : List Char) (v : Nat),
        train split text v = none ↔ v < 256) ∧
      (∀ (split : List Char → List (List Char)) (text : List Char) (v : Nat), 256 ≤ v →
          ∃ tr, train split text v = some tr) ∧
      ∀ (split : List Char → List (List Char)) (text : List Char) (v : Nat) (tr : TrainResult),
        256 ≤ v → pairStream ((split text).map (fun chunk => utf8Encode chunk)) = [] →
          train split text v = some tr → tr.merges = [] := by
  refine ⟨?_, ?_, ?_⟩
  · intro split text v
    rw [train]
    by_cases hv : v < 256
    · rw [if_pos hv]
      exact ⟨fun _ => hv, fun _ => rfl⟩
    · rw [if_neg hv]
      exact ⟨fun h => Option.noConfusion h, fun h => absurd h hv⟩
  · intro split text v hv
    rw [train, if_neg (by omega)]
    exact ⟨_, rfl⟩
  · intro split text v tr hv hstream h
    rw [train, if_neg (by omega)] at h
    have htr := Option.some.inj h
    have hs : accumStats ((split text).map (fun chunk => utf8Encode chunk)) = [] := by
      rw [accumStats_eq_foldl, hstream]
      rfl
    rw [← htr]
    exact trainLoop_no_pairs baseVocab 256 false (v - 256) hs

theorem c8_train_precondition_witness :
    ((256 : Nat) ≤ 256 ∧ ∃ tr, train (fun t => [t]) [] 256 = some tr) ∧
      pairStream (((fun (t : List Char) => [t]) []).map (fun chunk => utf8Encode chunk)) = [] ∧
      (TrainResult.mk [] baseVocab false).merges = [] :=
  ⟨⟨le_rfl, c8_train_precondition.2.1 (fun t => [t]) [] 256 le_rfl⟩, rfl,
    c8_train_precondition.2.2 (fun t => [t]) [] 256 ⟨[], baseVocab, false⟩ le_rfl rfl rfl⟩

theorem joinVocab_eq_none_iff (vocab : List (Nat × List Nat)) (l : List Nat) :
    joinVocab vocab l = none ↔ ∃ i ∈ l, alookup vocab i = none := by
  induction l with
  | nil => simp [joinVocab]
  | cons i rest ih =>
      rw [joinVocab]
      cases hl : alookup vocab i with
      | none =>
          exact ⟨fun _ => ⟨i, by simp, hl⟩, fun _ => rfl⟩
      | some bs =>
          cases hj : joinVocab vocab rest with
          | none =>
              simp only [hj, Option.map_none, List.mem_cons]
              constructor
              · intro _
                rcases ih.mp hj with ⟨j, hj1, hj2⟩
                exact ⟨j, Or.inr hj1, hj2⟩
              · intro _
                rfl
          | some tail =>
              simp only [hj, Option.map_some, List.mem_cons]
              constructor
              · intro hcontr
                exact Option.noConfusion hcontr
              · rintro ⟨j, hj1 | hj1, hj2⟩
                · rw [hj1] at hj2
                  rw [hl] at hj2
                  exact Option.noConfusion hj2
                · have : joinVocab vocab rest = none := ih.mpr ⟨j, hj1, hj2⟩
                  rw [hj] at this
                  exact Option.noConfusion this

theorem joinVocab_eq_some (vocab : List (Nat × List Nat)) (l : List Nat)
    (h : ∀ i ∈ l, (alookup vocab i).isSome) :
    joinVocab vocab l = some (l.flatMap (expandTok vocab)) := by
  induction l with
  | nil => rfl
  | cons i rest ih =>
      have hi := h i (List.mem_cons_self _ _)
      rw [joinVocab]
      cases hl : alookup vocab i with
      | none => rw [hl] at hi; exact Bool.noConfusion hi
      | some bs =>
          rw [ih (fun j hj => h j (List.mem_cons_of_mem _ hj))]
          simp [List.flatMap_cons, expandTok, hl]

/-- Claim C7: decode fails exactly when some id has no vocabulary entry (the
modelled KeyError); when every id is present it always succeeds, returning
the UTF-8-with-replacement decoding of the concatenated byte sequences, and
the modelled decoder turns invalid bytes into the replacement character
instead of failing. -/
theorem c7_decode_errors :
    (∀ (vocab : List (Nat × List Nat)) (token_ids : List Nat),
        decode vocab token_ids = none ↔ ∃ i ∈ token_ids, alookup vocab i = none) ∧
      (∀ (vocab : List (Nat × List Nat)) (token_ids : List Nat),
          (∀ i ∈ token_ids, (alookup vocab i).isSome) →
            decode vocab token_ids =
              some (utf8DecodeReplace (token_ids.flatMap (expandTok vocab)))) ∧
      utf8DecodeReplace [0xFF] = [replChar] := by
  refine ⟨?_, ?_, by decide⟩
  · intro vocab token_ids
    rw [decode]
    cases hj : joinVocab vocab token_ids with
    | none =>
        exact ⟨fun _ => (joinVocab_eq_none_iff vocab token_ids).mp hj, fun _ => rfl⟩
    | some bs =>
        constructor
        · intro hcontr
          exact Option.noConfusion hcontr
        · intro hex
          have : joinVocab vocab token_ids = none :=
            (joinVocab_eq_none_iff vocab token_ids).mpr hex
          rw [hj] at this
          exact Option.noConfusion this
  · intro vocab token_ids h
    rw [decode, joinVocab_eq_some vocab token_ids h]
    rfl

theorem c7_decode_errors_witness :
    (∀ i ∈ [97], (alookup baseVocab i).isSome) ∧
      decode baseVocab [97] =
        some (utf8DecodeReplace (([97] : List Nat).flatMap (expandTok baseVocab))) :=
  ⟨by decide, c7_decode_errors.2.1 baseVocab [97] (by decide)⟩

/-! Insertion order of the statistics mapping and the tie-break policy. -/

theorem bump_keys_eq {α : Type} [DecidableEq α] (c : List (α × Nat)) (x : α) :
    (bumpCount c x).map Prod.fst =
      if x ∈ c.map Prod.fst then c.map Prod.fst else c.map Prod.fst ++ [x] := by
  induction c with
  | nil => simp [bumpCount]
  | cons e rest ih =>
      obtain ⟨k0, c0⟩ := e
      by_cases h : k0 = x
      · subst h
        rw [bumpCount, if_pos rfl]
        simp
      · rw [bumpCount, if_neg h, List.map_cons, List.map_cons, ih]
        by_cases hx : x ∈ rest.map Prod.fst
        · rw [if_pos hx, if_pos (by simp [hx])]
        · rw [if_neg hx, if_neg ?_, List.cons_append]
          simp only [List.mem_cons]
          rintro (hh | hh)
          · exact h hh.symm
          · exact hx hh

theorem mem_keepFirstSkip_not_seen {α : Type} [DecidableEq α] :
    ∀ {s seen : List α} {a : α}, a ∈ keepFirstSkip s seen → a ∉ seen := by
  intro s
  induction s with
  | nil => intro seen a h; simp [keepFirstSkip] at h
  | cons x s0 ih =>
      intro seen a h
      rw [keepFirstSkip] at h
      by_cases hx : x ∈ seen
      · rw [if_pos hx] at h
        exact ih h
      · rw [if_neg hx] at h
        rcases List.mem_cons.mp h with h0 | h0
        · rw [h0]; exact hx
        · intro ha
          exact ih h0 (List.mem_append.mpr (Or.inl ha))

theorem foldl_bump_keys {α : Type} [DecidableEq α] :
    ∀ (s : List α) (c : List (α × Nat)),
      (s.foldl bumpCount c).map Prod.fst = c.map Prod.fst ++ keepFirstSkip s (c.map Prod.fst) := by
  intro s
  induction s with
  | nil => intro c; simp [keepFirstSkip]
  | cons x s0 ih =>
      intro c
      rw [List.foldl_cons, ih, bump_keys_eq, keepFirstSkip]
      by_cases hx : x ∈ c.map Prod.fst
      · rw [if_pos hx, if_pos hx]
      · rw [if_neg hx, if_neg hx, List.append_assoc, List.singleton_append]

theorem firstIdx_cons_ne {α : Type} [DecidableEq α] (s : List α) {x a : α} (h : a ≠ x) :
    firstIdx (x :: s) a = firstIdx s a + 1 := by
  rw [firstIdx, if_neg (fun hh => h hh.symm)]

theorem keepFirstSkip_pairwise {α : Type} [DecidableEq α] :
    ∀ (s seen : List α),
      List.Pairwise (fun a b => firstIdx s a < firstIdx s b) (keepFirstSkip s seen) := by
  intro s
  induction s with
  | nil => intro seen; simp [keepFirstSkip]
  | cons x s0 ih =>
      intro seen
      rw [keepFirstSkip]
      by_cases hx : x ∈ seen
      · rw [if_pos hx]
        refine (ih seen).imp_of_mem ?_
        intro a b ha hb hr
        have hax : a ≠ x := by
          intro h
          exact (h ▸ mem_keepFirstSkip_not_seen ha) hx
        have hbx : b ≠ x := by
          intro h
          exact (h ▸ mem_keepFirstSkip_not_seen hb) hx
        rw [firstIdx_cons_ne s0 hax, firstIdx_cons_ne s0 hbx]
        omega
      · rw [if_neg hx]
        refine List.pairwise_cons.mpr ⟨?_, ?_⟩
        · intro b hb
          have hbx : b ≠ x := by
            intro h
            exact mem_keepFirstSkip_not_seen hb (List.mem_append.mpr (Or.inr (by simp [h])))
          rw [firstIdx, if_pos rfl, firstIdx_cons_ne s0 hbx]
          omega
        · refine (ih (seen ++ [x])).imp_of_mem ?_
          intro a b ha hb hr
          have hax : a ≠ x := by
            intro h
            exact mem_keepFirstSkip_not_seen ha (List.mem_append.mpr (Or.inr (by simp [h])))
          have hbx : b ≠ x := by
            intro h
            exact mem_keepFirstSkip_not_seen hb (List.mem_append.mpr (Or.inr (by simp [h])))
          rw [firstIdx_cons_ne s0 hax, firstIdx_cons_ne s0 hbx]
          omega

theorem accumStats_keys_eq (ids : List (List Nat)) :
    (accumStats ids).map Prod.fst = keepFirstSkip (pairStream ids) [] := by
  rw [accumStats_eq_foldl, foldl_bump_keys (pairStream ids) []]
  rfl

theorem accumStats_pairwise (ids : List (List Nat)) :
    List.Pairwise
      (fun a b => firstIdx (pairStream ids) a < firstIdx (pairStream ids) b)
      ((accumStats ids).map Prod.fst) := by
  rw [accumStats_keys_eq]
  exact keepFirstSkip_pairwise (pairStream ids) []

/-- Claim C4: in a training round, the selected pair has the maximum count,
and among distinct pairs tied at that count the selected one is the pair
whose first occurrence comes earliest in the corpus (chunk order, then left
to right within each chunk, which is exactly the insertion order of the
statistics mapping); the loop then records precisely that pair. -/
theorem c4_tie_break (ids : List (List Nat)) (p : Nat × Nat) (c : Nat)
    (hsel : maxByFirst (accumStats ids) = some (p, c)) :
    (∀ q cq, alookup (accumStats ids) q = some cq → cq ≤ c) ∧
      (∀ q cq, q ≠ p → alookup (accumStats ids) q = some cq → cq = c →
          firstIdx (pairStream ids) p < firstIdx (pairStream ids) q) ∧
      ∀ (merges : List ((Nat × Nat) × Nat)) (vocab : List (Nat × List Nat)) (n : Nat)
        (amb : Bool) (r : Nat),
        trainLoop ids merges vocab n amb (r + 1) =
          trainLoop (ids.map (fun chunk_ids => merge_token_ids chunk_ids p n))
            (aupdate merges p n)
            (aupdate vocab n ((alookup vocab p.1).getD [] ++ (alookup vocab p.2).getD []))
            (n + 1)
            (amb || decide (1 < ((accumStats ids).filter (fun e => e.2 == c)).length)) r := by
  refine ⟨?_, ?_, ?_⟩
  · intro q cq hq
    exact maxByFirst_le hsel (q, cq) (alookup_mem hq)
  · intro q cq hne hq hcq
    subst hcq
    rcases maxByFirst_split hsel with ⟨l1, l2, hsplit, hl1, _⟩
    have hqmem : (q, cq) ∈ accumStats ids := alookup_mem hq
    rw [hsplit] at hqmem
    rcases List.mem_append.mp hqmem with h0 | h0
    · exact absurd (hl1 _ h0) (lt_irrefl _)
    · rcases List.mem_cons.mp h0 with h1 | h1
      · exact absurd (congrArg Prod.fst h1) hne
      · have hpw := accumStats_pairwise ids
        rw [hsplit, List.map_append, List.map_cons] at hpw
        rcases (List.pairwise_append.mp hpw) with ⟨_, hpw2, _⟩
        rcases List.pairwise_cons.mp hpw2 with ⟨hp, _⟩
        exact hp q (List.mem_map.mpr ⟨(q, cq), h1, rfl⟩)
  · intro merges vocab n amb r
    exact trainLoop_succ_some merges vocab n amb r hsel

theorem c4_tie_break_witness :
    maxByFirst (accumStats [[1, 2, 3, 1, 2, 3]]) = some ((1, 2), 2) ∧
      firstIdx (pairStream [[1, 2, 3, 1, 2, 3]]) (1, 2) <
        firstIdx (pairStream [[1, 2, 3, 1, 2, 3]]) (2, 3) :=
  ⟨by decide,
    (c4_tie_break [[1, 2, 3, 1, 2, 3]] (1, 2) 2 (by decide)).2.1 (2, 3) 2 (by decide)
      (by decide) rfl⟩

/-! The greedy lowest-rank merge order of encoding. -/

theorem encode_chunk_fuel_sel_none {merges : List ((Nat × Nat) × Nat)} (f : Nat) {ids : List Nat}
    (h2 : ¬ ids.length < 2) (hsel : minByRank merges (get_stats ids []) = none) :
    encode_chunk_fuel merges (f + 1) ids = ids := by
  simp only [encode_chunk_fuel, if_neg h2, hsel]

theorem mem_adjPairs_two_le {q : Nat × Nat} {ids : List Nat} (hq : q ∈ adjPairs ids) :
    2 ≤ ids.length := by
  rcases ids with _ | ⟨a, _ | ⟨b, rest⟩⟩
  · simp [adjPairs] at hq
  · simp [adjPairs] at hq
  · simp only [List.length_cons]
    omega

theorem minByRank_of_ne_nil (merges : List ((Nat × Nat) × Nat))
    {l : List ((Nat × Nat) × Nat)} (hl : l ≠ []) : ∃ p, minByRank merges l = some p := by
  cases l with
  | nil => exact absurd rfl hl
  | cons x xs => exact ⟨_, rfl⟩

/-- Claim C6: each iteration of the encoding loop selects, among the adjacent
pairs of the current sequence, one that is a merge-table key with the lowest
rank (smallest result id, the merge learned earliest) and applies it; the
loop stops exactly when no adjacent pair of the current sequence is a key of
the merge table (it returns the sequence unchanged when no adjacent pair is
a key, and never breaks while some keyed adjacent pair remains: the selected
pair then passes the membership check and a merge step is taken); and after
training on "aaaa" with target size 257 (one chunk), the single merge is
(97, 97) -> 256, encoding "aaaa" gives [256, 256] and decoding [256, 256]
gives back "aaaa". -/
theorem c6_encode_lowest_rank :
    (∀ (merges : List ((Nat × Nat) × Nat)) (ids : List Nat) (p : Nat × Nat) (idx f : Nat),
        ¬ ids.length < 2 → minByRank merges (get_stats ids []) = some p →
          alookup merges p = some idx →
          p ∈ adjPairs ids ∧
            (∀ q r, q ∈ adjPairs ids → alookup merges q = some r → idx ≤ r) ∧
            encode_chunk_fuel merges (f + 1) ids =
              encode_chunk_fuel merges f (merge_token_ids ids p idx)) ∧
      (∀ (merges : List ((Nat × Nat) × Nat)) (ids : List Nat) (f : Nat),
          (∀ q ∈ adjPairs ids, alookup merges q = none) →
            encode_chunk_fuel merges f ids = ids) ∧
      (∀ (merges : List ((Nat × Nat) × Nat)) (ids : List Nat) (q : Nat × Nat) (r f : Nat),
          q ∈ adjPairs ids → alookup merges q = some r →
            ∃ p idx, minByRank merges (get_stats ids []) = some p ∧
              alookup merges p = some idx ∧
              encode_chunk_fuel merges (f + 1) ids =
                encode_chunk_fuel merges f (merge_token_ids ids p idx)) ∧
      ∀ (split : List Char → List (List Char)) (tr : TrainResult),
        split "aaaa".data = ["aaaa".data] → train split "aaaa".data 257 = some tr →
          tr.merges = [((97, 97), 256)] ∧
            encode_ordinary tr.merges split "aaaa".data = [256, 256] ∧
            decode tr.vocab [256, 256] = some "aaaa".data := by
  refine ⟨?_, ?_, ?_, ?_⟩
  · intro merges ids p idx f h2 hsel hlook
    refine ⟨selected_pair_adj hsel, ?_, encode_chunk_fuel_step f h2 hsel hlook⟩
    intro q r hq hr
    have hqkeys : q ∈ (get_stats ids []).map Prod.fst := (get_stats_keys_mem ids q).mpr hq
    rcases List.mem_map.mp hqkeys with ⟨e, he, hqe⟩
    have hmin := minByRank_min hsel e he
    rw [hqe, hr, hlook] at hmin
    simp only [rankBetter, decide_eq_false_iff_not] at hmin
    omega
  · intro merges ids f hnone
    cases f with
    | zero => rfl
    | succ f =>
        by_cases h2 : ids.length < 2
        · exact encode_chunk_fuel_small (f + 1) h2
        · cases hsel : minByRank merges (get_stats ids []) with
          | none => exact encode_chunk_fuel_sel_none f h2 hsel
          | some p =>
              exact encode_chunk_fuel_break f h2 hsel (hnone p (selected_pair_adj hsel))
  · intro merges ids q r f hq hr
    have h2 : ¬ ids.length < 2 := by
      have := mem_adjPairs_two_le hq
      omega
    have hqkeys : q ∈ (get_stats ids []).map Prod.fst := (get_stats_keys_mem ids q).mpr hq
    have hne : get_stats ids [] ≠ [] := by
      intro hnil
      rw [hnil] at hqkeys
      simp at hqkeys
    rcases minByRank_of_ne_nil merges hne with ⟨p, hsel⟩
    cases hlook : alookup merges p with
    | none =>
        rcases List.mem_map.mp hqkeys with ⟨e, he, hqe⟩
        have hmin := minByRank_min hsel e he
        rw [hqe, hr, hlook] at hmin
        simp [rankBetter] at hmin
    | some idx =>
        exact ⟨p, idx, hsel, hlook, encode_chunk_fuel_step f h2 hsel hlook⟩
  · intro split tr hsplit h
    rw [train, if_neg (by omega), hsplit] at h
    have htr := Option.some.inj h
    rw [encode_ordinary, hsplit, ← htr]
    refine ⟨by decide, ?_, by decide⟩
    show ([encode_chunk _ (utf8Encode "aaaa".data)]).flatten = [256, 256]
    decide

theorem c6_encode_lowest_rank_witness :
    ((fun (t : List Char) => [t]) "aaaa".data = ["aaaa".data]) ∧
      train (fun (t : List Char) => [t]) "aaaa".data 257 =
        some (trainLoop [utf8Encode "aaaa".data] [] baseVocab 256 false 1) ∧
      (trainLoop [utf8Encode "aaaa".data] [] baseVocab 256 false 1).merges = [((97, 97), 256)] ∧
        encode_ordinary (trainLoop [utf8Encode "aaaa".data] [] baseVocab 256 false 1).merges
            (fun t => [t]) "aaaa".data = [256, 256] ∧
        decode (trainLoop [utf8Encode "aaaa".data] [] baseVocab 256 false 1).vocab [256, 256] =
          some "aaaa".data :=
  ⟨rfl, by rw [train]; rfl,
    c6_encode_lowest_rank.2.2.2 (fun t => [t])
      (trainLoop [utf8Encode "aaaa".data] [] baseVocab 256 false 1) rfl (by rw [train]; rfl)⟩

/-! UTF-8 round trip. -/

theorem utf8Step_shrink : ∀ (l : List Nat), l ≠ [] → (utf8Step l).2.length < l.length := by
  intro l hl
  rcases l with _ | ⟨b0, _ | ⟨b1, _ | ⟨b2, _ | ⟨b3, rest⟩⟩⟩⟩
  · exact absurd rfl hl
  all_goals simp only [utf8Step]
  all_goals (split_ifs <;> simp [List.length]) <;> omega

theorem utf8DecodeFuel_nil (f : Nat) : utf8DecodeFuel f [] = [] := by
  cases f <;> rfl

theorem utf8DecodeFuel_of_le :
    ∀ (n f1 f2 : Nat) (l : List Nat), l.length ≤ n → l.length ≤ f1 → l.length ≤ f2 →
      utf8DecodeFuel f1 l = utf8DecodeFuel f2 l := by
  intro n
  induction n with
  | zero =>
      intro f1 f2 l hn h1 h2
      have : l = [] := List.length_eq_zero.mp (by omega)
      rw [this, utf8DecodeFuel_nil, utf8DecodeFuel_nil]
  | succ n ih =>
      intro f1 f2 l hn h1 h2
      cases l with
      | nil => rw [utf8DecodeFuel_nil, utf8DecodeFuel_nil]
      | cons b0 rest =>
          obtain ⟨g1, rfl⟩ : ∃ g, f1 = g + 1 := ⟨f1 - 1, by simp at h1; omega⟩
          obtain ⟨g2, rfl⟩ : ∃ g, f2 = g + 1 := ⟨f2 - 1, by simp at h2; omega⟩
          rw [utf8DecodeFuel, utf8DecodeFuel]
          have hs := utf8Step_shrink (b0 :: rest) (by simp)
          rw [ih g1 g2 (utf8Step (b0 :: rest)).2 (by simp at hn hs ⊢; omega)
            (by simp at h1 hs ⊢; omega) (by simp at h2 hs ⊢; omega)]

theorem utf8DecodeReplace_step {b0 : Nat} (rest : List Nat) :
    utf8DecodeReplace (b0 :: rest) =
      (utf8Step (b0 :: rest)).1 :: utf8DecodeReplace (utf8Step (b0 :: rest)).2 := by
  rw [utf8DecodeReplace, List.length_cons, utf8DecodeFuel, utf8DecodeReplace]
  have hs := utf8Step_shrink (b0 :: rest) (by simp)
  rw [utf8DecodeFuel_of_le rest.length.succ rest.length (utf8Step (b0 :: rest)).2.length
    (utf8Step (b0 :: rest)).2 (by simp at hs ⊢; omega) (by simp at hs ⊢; omega) le_rfl]

theorem utf8Step_one {b0 : Nat} (rest : List Nat) (h : b0 < 0x80) :
    utf8Step (b0 :: rest) = (Char.ofNat b0, rest) := by
  simp only [utf8Step]
  rw [if_pos h]

theorem utf8Step_two {b0 b1 : Nat} (rest : List Nat)
    (h0 : 0xC0 ≤ b0) (h1 : b0 < 0xE0) (hc : 0x80 ≤ b1 ∧ b1 < 0xC0)
    (hn : 0x80 ≤ (b0 - 0xC0) * 0x40 + (b1 - 0x80)) :
    utf8Step (b0 :: b1 :: rest) = (Char.ofNat ((b0 - 0xC0) * 0x40 + (b1 - 0x80)), rest) := by
  simp only [utf8Step]
  rw [if_neg (by omega), if_neg (by omega), if_pos (by omega), if_pos hc, if_pos hn]

theorem utf8Step_three {b0 b1 b2 : Nat} (rest : List Nat)
    (h0 : 0xE0 ≤ b0) (h1 : b0 < 0xF0)
    (hc : (0x80 ≤ b1 ∧ b1 < 0xC0) ∧ (0x80 ≤ b2 ∧ b2 < 0xC0))
    (hn : 0x800 ≤ (b0 - 0xE0) * 0x1000 + (b1 - 0x80) * 0x40 + (b2 - 0x80) ∧
      ((b0 - 0xE0) * 0x1000 + (b1 - 0x80) * 0x40 + (b2 - 0x80) < 0xD800 ∨
        0xDFFF < (b0 - 0xE0) * 0x1000 + (b1 - 0x80) * 0x40 + (b2 - 0x80))) :
    utf8Step (b0 :: b1 :: b2 :: rest) =
      (Char.ofNat ((b0 - 0xE0) * 0x1000 + (b1 - 0x80) * 0x40 + (b2 - 0x80)), rest) := by
  simp only [utf8Step]
  rw [if_neg (by omega), if_neg (by omega), if_neg (by omega), if_pos (by omega), if_pos hc,
    if_pos hn]

theorem utf8Step_four {b0 b1 b2 b3 : Nat} (rest : List Nat)
    (h0 : 0xF0 ≤ b0) (h1 : b0 < 0xF8)
    (hc : (0x80 ≤ b1 ∧ b1 < 0xC0) ∧ (0x80 ≤ b2 ∧ b2 < 0xC0) ∧ (0x80 ≤ b3 ∧ b3 < 0xC0))
    (hn : 0x10000 ≤
        (b0 - 0xF0) * 0x40000 + (b1 - 0x80) * 0x1000 + (b2 - 0x80) * 0x40 + (b3 - 0x80) ∧
      (b0 - 0xF0) * 0x40000 + (b1 - 0x80) * 0x1000 + (b2 - 0x80) * 0x40 + (b3 - 0x80) <
        0x110000) :
    utf8Step (b0 :: b1 :: b2 :: b3 :: rest) =
      (Char.ofNat
        ((b0 - 0xF0) * 0x40000 + (b1 - 0x80) * 0x1000 + (b2 - 0x80) * 0x40 + (b3 - 0x80)),
        rest) := by
  simp only [utf8Step]
  rw [if_neg (by omega), if_neg (by omega), if_neg (by omega), if_neg (by omega),
    if_pos (by omega), if_pos hc, if_pos hn]

theorem utf8DecodeReplace_one {b0 : Nat} (rest : List Nat) (h : b0 < 0x80) :
    utf8DecodeReplace (b0 :: rest) = Char.ofNat b0 :: utf8DecodeReplace rest := by
  rw [utf8DecodeReplace_step, utf8Step_one rest h]

theorem utf8DecodeReplace_two {b0 b1 : Nat} (rest : List Nat)
    (h0 : 0xC0 ≤ b0) (h1 : b0 < 0xE0) (hc : 0x80 ≤ b1 ∧ b1 < 0xC0)
    (hn : 0x80 ≤ (b0 - 0xC0) * 0x40 + (b1 - 0x80)) :
    utf8DecodeReplace (b0 :: b1 :: rest) =
      Char.ofNat ((b0 - 0xC0) * 0x40 + (b1 - 0x80)) :: utf8DecodeReplace rest := by
  rw [utf8DecodeReplace_step, utf8Step_two rest h0 h1 hc hn]

theorem utf8DecodeReplace_three {b0 b1 b2 : Nat} (rest : List Nat)
    (h0 : 0xE0 ≤ b0) (h1 : b0 < 0xF0)
    (hc : (0x80 ≤ b1 ∧ b1 < 0xC0) ∧ (0x80 ≤ b2 ∧ b2 < 0xC0))
    (hn : 0x800 ≤ (b0 - 0xE0) * 0x1000 + (b1 - 0x80) * 0x40 + (b2 - 0x80) ∧
      ((b0 - 0xE0) * 0x1000 + (b1 - 0x80) * 0x40 + (b2 - 0x80) < 0xD800 ∨
        0xDFFF < (b0 - 0xE0) * 0x1000 + (b1 - 0x80) * 0x40 + (b2 - 0x80))) :
    utf8DecodeReplace (b0 :: b1 :: b2 :: rest) =
      Char.ofNat ((b0 - 0xE0) * 0x1000 + (b1 - 0x80) * 0x40 + (b2 - 0x80)) ::
        utf8DecodeReplace rest := by
  rw [utf8DecodeReplace_step, utf8Step_three rest h0 h1 hc hn]

theorem utf8DecodeReplace_four {b0 b1 b2 b3 : Nat} (rest : List Nat)
    (h0 : 0xF0 ≤ b0) (h1 : b0 < 0xF8)
    (hc : (0x80 ≤ b1 ∧ b1 < 0xC0) ∧ (0x80 ≤ b2 ∧ b2 < 0xC0) ∧ (0x80 ≤ b3 ∧ b3 < 0xC0))
    (hn : 0x10000 ≤
        (b0 - 0xF0) * 0x40000 + (b1 - 0x80) * 0x1000 + (b2 - 0x80) * 0x40 + (b3 - 0x80) ∧
      (b0 - 0xF0) * 0x40000 + (b1 - 0x80) * 0x1000 + (b2 - 0x80) * 0x40 + (b3 - 0x80) <
        0x110000) :
    utf8DecodeReplace (b0 :: b1 :: b2 :: b3 :: rest) =
      Char.ofNat
          ((b0 - 0xF0) * 0x40000 + (b1 - 0x80) * 0x1000 + (b2 - 0x80) * 0x40 + (b3 - 0x80)) ::
        utf8DecodeReplace rest := by
  rw [utf8DecodeReplace_step, utf8Step_four rest h0 h1 hc hn]

theorem char_valid_ranges (c : Char) :
    c.toNat < 0xD800 ∨ (0xDFFF < c.toNat ∧ c.toNat < 0x110000) := by
  have h := c.valid
  rcases h with h | h
  · exact Or.inl h
  · exact Or.inr h

theorem utf8_decode_encodeChar (c : Char) (rest : List Nat) :
    utf8DecodeReplace (utf8EncodeChar c.toNat ++ rest) = c :: utf8DecodeReplace rest := by
  have hval := char_valid_ranges c
  by_cases h1 : c.toNat < 0x80
  · have e1 : utf8EncodeChar c.toNat = [c.toNat] := by rw [utf8EncodeChar, if_pos h1]
    rw [e1, List.singleton_append, utf8DecodeReplace_one rest h1, Char.ofNat_toNat]
  · by_cases h2 : c.toNat < 0x800
    · have e1 : utf8EncodeChar c.toNat =
          [0xC0 + c.toNat / 0x40, 0x80 + c.toNat % 0x40] := by
        rw [utf8EncodeChar, if_neg h1, if_pos h2]
      rw [e1]
      simp only [List.cons_append, List.nil_append]
      rw [utf8DecodeReplace_two rest (by omega) (by omega) ⟨by omega, by omega⟩ (by omega)]
      have hm : (0xC0 + c.toNat / 0x40 - 0xC0) * 0x40 + (0x80 + c.toNat % 0x40 - 0x80) =
          c.toNat := by omega
      rw [hm, Char.ofNat_toNat]
    · by_cases h3 : c.toNat < 0x10000
      · have e1 : utf8EncodeChar c.toNat =
            [0xE0 + c.toNat / 0x1000, 0x80 + c.toNat / 0x40 % 0x40, 0x80 + c.toNat % 0x40] := by
          rw [utf8EncodeChar, if_neg h1, if_neg h2, if_pos h3]
        rw [e1]
        simp only [List.cons_append, List.nil_append]
        have hm : (0xE0 + c.toNat / 0x1000 - 0xE0) * 0x1000 +
            (0x80 + c.toNat / 0x40 % 0x40 - 0x80) * 0x40 + (0x80 + c.toNat % 0x40 - 0x80) =
            c.toNat := by omega
        rw [utf8DecodeReplace_three rest (by omega) (by omega)
          ⟨⟨by omega, by omega⟩, by omega, by omega⟩ (by rw [hm]; omega)]
        rw [hm, Char.ofNat_toNat]
      · have h4 : c.toNat < 0x110000 := by omega
        have e1 : utf8EncodeChar c.toNat =
            [0xF0 + c.toNat / 0x40000, 0x80 + c.toNat / 0x1000 % 0x40,
              0x80 + c.toNat / 0x40 % 0x40, 0x80 + c.toNat % 0x40] := by
          rw [utf8EncodeChar, if_neg h1, if_neg h2, if_neg h3]
        rw [e1]
        simp only [List.cons_append, List.nil_append]
        have hm : (0xF0 + c.toNat / 0x40000 - 0xF0) * 0x40000 +
            (0x80 + c.toNat / 0x1000 % 0x40 - 0x80) * 0x1000 +
            (0x80 + c.toNat / 0x40 % 0x40 - 0x80) * 0x40 + (0x80 + c.toNat % 0x40 - 0x80) =
            c.toNat := by omega
        rw [utf8DecodeReplace_four rest (by omega) (by omega)
          ⟨⟨by omega, by omega⟩, ⟨by omega, by omega⟩, by omega, by omega⟩ (by rw [hm]; omega)]
        rw [hm, Char.ofNat_toNat]

theorem utf8Encode_cons (c : Char) (cs : List Char) :
    utf8Encode (c :: cs) = utf8EncodeChar c.toNat ++ utf8Encode cs := by
  rw [utf8Encode, List.map_cons, List.flatten_cons, utf8Encode]

theorem utf8_roundtrip (s : List Char) : utf8DecodeReplace (utf8Encode s) = s := by
  induction s with
  | nil => rfl
  | cons c cs ih => rw [utf8Encode_cons, utf8_decode_encodeChar, ih]

/-! The trained vocabulary is consistent with the recorded merges. -/

theorem mem_aupdate {α β : Type} [DecidableEq α] {l : List (α × β)} {k : α} {v : β}
    {e : α × β} (h : e ∈ aupdate l k v) : e ∈ l ∨ e = (k, v) := by
  induction l with
  | nil =>
      rw [aupdate] at h
      exact Or.inr (List.mem_singleton.mp h)
  | cons e0 rest ih =>
      obtain ⟨k0, v0⟩ := e0
      rw [aupdate] at h
      by_cases h0 : k0 = k
      · rw [if_pos h0] at h
        rcases List.mem_cons.mp h with h1 | h1
        · subst h0
          exact Or.inr h1
        · exact Or.inl (List.mem_cons_of_mem _ h1)
      · rw [if_neg h0] at h
        rcases List.mem_cons.mp h with h1 | h1
        · exact Or.inl (by rw [h1]; exact List.mem_cons_self _ _)
        · rcases ih h1 with h2 | h2
          · exact Or.inl (List.mem_cons_of_mem _ h2)
          · exact Or.inr h2

theorem alookup_range_map (m : Nat) :
    ∀ (s i : Nat), alookup ((List.range' s m).map (fun j => (j, ([j] : List Nat)))) i =
      if s ≤ i ∧ i < s + m then some [i] else none := by
  induction m with
  | zero =>
      intro s i
      rw [if_neg (by omega)]
      rfl
  | succ m ih =>
      intro s i
      rw [List.range'_succ, List.map_cons, alookup]
      by_cases h : s = i
      · subst h
        rw [if_pos rfl, if_pos (by omega)]
      · rw [if_neg h, ih (s + 1) i]
        by_cases h2 : s + 1 ≤ i ∧ i < s + 1 + m
        · rw [if_pos h2, if_pos (by omega)]
        · rw [if_neg h2, if_neg (by omega)]

theorem alookup_baseVocab (i : Nat) :
    alookup baseVocab i = if i < 256 then some [i] else none := by
  rw [baseVocab, List.range_eq_range', alookup_range_map 256 0 i]
  by_cases h : i < 256
  · rw [if_pos (by omega), if_pos h]
  · rw [if_neg (by omega), if_neg h]

theorem baseVocab_baseOk : BaseOk baseVocab := by
  intro i hi
  rw [alookup_baseVocab, if_pos hi]

theorem baseVocab_dom (k : Nat) : (alookup baseVocab k).isSome = true ↔ k < 256 := by
  rw [alookup_baseVocab]
  by_cases h : k < 256
  · simp [h]
  · simp [h]

theorem trainLoop_vocab_ok :
    ∀ (r : Nat) (ids : List (List Nat)) (merges : List ((Nat × Nat) × Nat))
      (vocab : List (Nat × List Nat)) (n : Nat) (amb : Bool),
      256 ≤ n →
      BaseOk vocab →
      (∀ k, (alookup vocab k).isSome = true ↔ k < n) →
      MergesOk merges vocab →
      (∀ c ∈ ids, ∀ x ∈ c, x < n) →
      (∀ e ∈ merges, e.1.1 < n ∧ e.1.2 < n ∧ e.2 < n) →
      BaseOk (trainLoop ids merges vocab n amb r).vocab ∧
        MergesOk (trainLoop ids merges vocab n amb r).merges
          (trainLoop ids merges vocab n amb r).vocab := by
  intro r
  induction r with
  | zero =>
      intro ids merges vocab n amb h256 hbase hdom hok hids hmb
      rw [trainLoop_zero]
      exact ⟨hbase, hok⟩
  | succ r ih =>
      intro ids merges vocab n amb h256 hbase hdom hok hids hmb
      cases hsel : maxByFirst (accumStats ids) with
      | none =>
          rw [trainLoop_succ_none merges vocab n amb r hsel]
          exact ⟨hbase, hok⟩
      | some e =>
          obtain ⟨pair, cnt⟩ := e
          rw [trainLoop_succ_some merges vocab n amb r hsel]
          have hstream : pair ∈ pairStream ids := selected_in_stream hsel
          have hcl : pair.1 < n ∧ pair.2 < n := stream_comp_lt hids hstream
          refine ih _ _ _ _ _ (by omega) ?_ ?_ ?_ ?_ ?_
          · intro i hi
            rw [alookup_aupdate_ne vocab _ (by omega)]
            exact hbase i hi
          · intro k
            by_cases hk : k = n
            · subst hk
              rw [alookup_aupdate_self]
              simp
            · rw [alookup_aupdate_ne vocab _ hk, hdom k]
              omega
          · intro p rr hp
            by_cases hpp : p = pair
            · subst hpp
              rw [alookup_aupdate_self] at hp
              have hrr := Option.some.inj hp
              subst hrr
              rw [alookup_aupdate_self]
              rw [expandTok, expandTok, alookup_aupdate_ne vocab _ (by omega),
                alookup_aupdate_ne vocab _ (by omega)]
            · rw [alookup_aupdate_ne merges _ hpp] at hp
              have hmem := alookup_mem hp
              have hb : p.1 < n ∧ p.2 < n ∧ rr < n := hmb _ hmem
              rw [alookup_aupdate_ne vocab _ (by omega),
                expandTok, expandTok, alookup_aupdate_ne vocab _ (by omega),
                alookup_aupdate_ne vocab _ (by omega)]
              exact hok p rr hp
          · intro c hc x hx
            rcases List.mem_map.mp hc with ⟨c0, hc0, rfl⟩
            rcases mem_merge hx with h | h
            · exact lt_trans (hids c0 hc0 x h) (Nat.lt_succ_self n)
            · omega
          · intro e he
            rcases mem_aupdate he with h | h
            · have := hmb e h
              omega
            · rw [h]
              simp only []
              omega

/-! Expansion of token ids to bytes through encoding. -/

theorem flatMap_expand_merge {vocab : List (Nat × List Nat)} {pair : Nat × Nat} {idx : Nat}
    (h : alookup vocab idx = some (expandTok vocab pair.1 ++ expandTok vocab pair.2)) :
    ∀ ids : List Nat,
      (merge_token_ids ids pair idx).flatMap (expandTok vocab) =
        ids.flatMap (expandTok vocab) := by
  intro ids
  induction ids, pair, idx using merge_token_ids.induct with
  | case1 a b rest pair idx hcnd ih =>
      rw [merge_token_ids, if_pos hcnd, List.flatMap_cons, List.flatMap_cons,
        List.flatMap_cons, ih h]
      obtain ⟨rfl, rfl⟩ := hcnd
      show expandTok vocab idx ++ _ = _
      rw [expandTok, h]
      simp [List.append_assoc]
  | case2 a b rest pair idx hcnd ih =>
      rw [merge_token_ids, if_neg hcnd, List.flatMap_cons, List.flatMap_cons, ih h]
  | case3 ids pair idx hshape =>
      rw [merge_of_no_two _ _ hshape]

theorem encode_chunk_fuel_expand {merges : List ((Nat × Nat) × Nat)}
    {vocab : List (Nat × List Nat)} (hok : MergesOk merges vocab) :
    ∀ (f : Nat) (ids : List Nat),
      (encode_chunk_fuel merges f ids).flatMap (expandTok vocab) =
        ids.flatMap (expandTok vocab) := by
  intro f
  induction f with
  | zero => intro ids; rfl
  | succ f ih =>
      intro ids
      by_cases h2 : ids.length < 2
      · rw [encode_chunk_fuel_small (f + 1) h2]
      · cases hsel : minByRank merges (get_stats ids []) with
        | none => rw [encode_chunk_fuel_sel_none f h2 hsel]
        | some p =>
            cases hlook : alookup merges p with
            | none => rw [encode_chunk_fuel_break f h2 hsel hlook]
            | some idx =>
                rw [encode_chunk_fuel_step f h2 hsel hlook, ih,
                  flatMap_expand_merge (hok p idx hlook)]

theorem encode_chunk_fuel_dom {merges : List ((Nat × Nat) × Nat)}
    {vocab : List (Nat × List Nat)} (hok : MergesOk merges vocab) :
    ∀ (f : Nat) (ids : List Nat), (∀ x ∈ ids, (alookup vocab x).isSome = true) →
      ∀ x ∈ encode_chunk_fuel merges f ids, (alookup vocab x).isSome = true := by
  intro f
  induction f with
  | zero => intro ids h; exact h
  | succ f ih =>
      intro ids h
      by_cases h2 : ids.length < 2
      · rw [encode_chunk_fuel_small (f + 1) h2]
        exact h
      · cases hsel : minByRank merges (get_stats ids []) with
        | none =>
            rw [encode_chunk_fuel_sel_none f h2 hsel]
            exact h
        | some p =>
            cases hlook : alookup merges p with
            | none =>
                rw [encode_chunk_fuel_break f h2 hsel hlook]
                exact h
            | some idx =>
                rw [encode_chunk_fuel_step f h2 hsel hlook]
                refine ih _ ?_
                intro x hx
                rcases mem_merge hx with hm | hm
                · exact h x hm
                · rw [hm, hok p idx hlook]
                  rfl

theorem expand_bytes {vocab : List (Nat × List Nat)} (hbase : BaseOk vocab) :
    ∀ bs : List Nat, (∀ b ∈ bs, b < 256) → bs.flatMap (expandTok vocab) = bs := by
  intro bs
  induction bs with
  | nil => intro _; rfl
  | cons b rest ih =>
      intro hb
      rw [List.flatMap_cons, ih (fun x hx => hb x (List.mem_cons_of_mem _ hx)), expandTok,
        hbase b (hb b (List.mem_cons_self _ _))]
      rfl

theorem flatMap_flatten {α β : Type} (f : α → List β) :
    ∀ L : List (List α), L.flatten.flatMap f = (L.map (fun l => l.flatMap f)).flatten := by
  intro L
  induction L with
  | nil => rfl
  | cons l rest ih =>
      rw [List.flatten_cons, List.flatMap_append, ih, List.map_cons, List.flatten_cons]

theorem utf8Encode_append (a b : List Char) :
    utf8Encode (a ++ b) = utf8Encode a ++ utf8Encode b := by
  rw [utf8Encode, utf8Encode, utf8Encode, List.map_append, List.flatten_append]

theorem utf8Encode_flatten :
    ∀ L : List (List Char), (L.map (fun ch => utf8Encode ch)).flatten = utf8Encode L.flatten := by
  intro L
  induction L with
  | nil => rfl
  | cons l rest ih =>
      rw [List.map_cons, List.flatten_cons, List.flatten_cons, utf8Encode_append, ih]

/-- Claim C1: the round trip.  For any corpus and target size for which
training completed (no special tokens exist in this tokenizer), and any text
that the chunker splits into a partition (no gaps or overlaps, in order),
decoding the encoding of the text returns exactly the text: chunking covers
the text, merge application preserves the underlying byte concatenation, and
UTF-8 decoding inverts UTF-8 encoding. -/
theorem c1_round_trip (split : List Char → List (List Char)) (corpus : List Char) (v : Nat)
    (tr : TrainResult) (s : List Char)
    (htrain : train split corpus v = some tr)
    (hsplit : (split s).flatten = s) :
    decode tr.vocab (encode_ordinary tr.merges split s) = some s := by
  rw [train] at htrain
  by_cases hv : v < 256
  · rw [if_pos hv] at htrain
    exact Option.noConfusion htrain
  rw [if_neg hv] at htrain
  have htr := Option.some.inj htrain
  have hchunks : ∀ c ∈ (split corpus).map (fun chunk => utf8Encode chunk), ∀ x ∈ c, x < 256 := by
    intro c hc x hx
    rcases List.mem_map.mp hc with ⟨c0, hc0, rfl⟩
    exact utf8Encode_byte_lt hx
  have hinv := trainLoop_vocab_ok (v - 256) _ [] baseVocab 256 false le_rfl baseVocab_baseOk
    baseVocab_dom (fun p r h => Option.noConfusion h) hchunks (by simp)
  rw [htr] at hinv
  obtain ⟨hbase, hok⟩ := hinv
  rw [encode_ordinary, decode]
  have hdom : ∀ x ∈ ((split s).map
      (fun chunk => encode_chunk tr.merges (utf8Encode chunk))).flatten,
      (alookup tr.vocab x).isSome = true := by
    intro x hx
    rcases List.mem_flatten.mp hx with ⟨l, hl, hxl⟩
    rcases List.mem_map.mp hl with ⟨ch, hch, rfl⟩
    refine encode_chunk_fuel_dom hok _ _ ?_ x hxl
    intro y hy
    rw [hbase y (utf8Encode_byte_lt hy)]
    rfl
  rw [joinVocab_eq_some _ _ hdom]
  have hval : (((split s).map
      (fun chunk => encode_chunk tr.merges (utf8Encode chunk))).flatten).flatMap
        (expandTok tr.vocab) = utf8Encode s := by
    rw [flatMap_flatten]
    have hmapeq : ((split s).map
        (fun chunk => encode_chunk tr.merges (utf8Encode chunk))).map
          (fun l => l.flatMap (expandTok tr.vocab)) =
        (split s).map (fun ch => utf8Encode ch) := by
      rw [List.map_map]
      refine List.map_congr_left ?_
      intro ch _
      show (encode_chunk tr.merges (utf8Encode ch)).flatMap (expandTok tr.vocab) =
        utf8Encode ch
      rw [encode_chunk, encode_chunk_fuel_expand hok]
      exact expand_bytes hbase _ (fun b hb => utf8Encode_byte_lt hb)
    rw [hmapeq, utf8Encode_flatten, hsplit]
  rw [hval]
  show some (utf8DecodeReplace (utf8Encode s)) = some s
  rw [utf8_roundtrip]

theorem c1_round_trip_witness :
    train (fun (t : List Char) => [t]) [] 256 = some ⟨[], baseVocab, false⟩ ∧
      ((fun (t : List Char) => [t]) "a".data).flatten = "a".data ∧
      decode (TrainResult.mk [] baseVocab false).vocab
          (encode_ordinary (TrainResult.mk [] baseVocab false).merges (fun t => [t]) "a".data) =
        some "a".data :=
  ⟨rfl, rfl, c1_round_trip (fun t => [t]) [] 256 ⟨[], baseVocab, false⟩ "a".data rfl rfl⟩
